import Mathlib

/-!
Shallow embedding of `src/script.py` (HowLongToBeat game-catalog enricher).

Python strings are modelled as Lean `String`; a missing CSV field is
modelled as the empty string (both are falsy for every check the script
performs).  Python `float` arithmetic inside `round_to_quarter` is
modelled with exact rationals (`ℚ`): the script only ever parses a plain
decimal literal, multiplies by 4, applies Python's banker's rounding
(`round`) and divides by 4, and on plain decimal literals the rational
model agrees with the claims under scrutiny.  External services (OpenAI
batch classification, HowLongToBeat fuzzy search) are modelled as
oracles passed in as explicit arguments; issuing a request is counted in
a `calls` field, and every `self._save_cache()` invocation is counted in
a `saves` field.
-/

namespace Script

/-! ## Definitions: the shallow embedding of script.py -/

/-- Python `str.strip()` / the whitespace skipped by `float()`:
space, tab, newline, carriage return, vertical tab, form feed. -/
def isPyWs (c : Char) : Bool :=
  c = ' ' || c = '\t' || c = '\n' || c = '\r' || c = '\x0b' || c = '\x0c'

/-- Python `str.strip()` on the underlying character list. -/
def stripL (l : List Char) : List Char :=
  ((l.dropWhile isPyWs).reverse.dropWhile isPyWs).reverse

/-- Python `str.strip()`. -/
def pyStrip (s : String) : String := ⟨stripL s.data⟩

/-- ASCII lower-casing of one character (the script's game names and
field values are ASCII; Python `str.lower()` restricted to ASCII). -/
def lowerChar (c : Char) : Char :=
  if 'A' ≤ c ∧ c ≤ 'Z' then Char.ofNat (c.toNat + 32) else c

/-- Python `str.lower()`. -/
def pyLower (s : String) : String := ⟨s.data.map lowerChar⟩

/-- Model of `normalize_field` (script.py lines 46-51): trims the value and maps
the case-insensitive set {"", "none", "nan", "null", "unknown"} to the
sentinel `"Unknown"`; otherwise returns the trimmed value.
`str(val or "")` renders a missing field (`None`) as `""`, which is the
representation this model already uses for missing fields. -/
def normalize_field (val : String) : String :=
  let clean_val := pyStrip val
  if pyLower clean_val ∈ ["", "none", "nan", "null", "unknown"] then "Unknown"
  else clean_val

/-- ASCII decimal digit test. -/
def isDigitC (c : Char) : Bool := '0' ≤ c ∧ c ≤ '9'

/-- Numeric value of a decimal digit character. -/
def digitVal (c : Char) : ℕ := c.toNat - 48

/-- Big-endian digit-character list to natural number. -/
def digitsToNat (l : List Char) : ℕ :=
  l.foldl (fun acc c => 10 * acc + digitVal c) 0

/-- The syntactic part of Python `float(value)` restricted to the plain
decimal literals the script's data contains: optional surrounding
whitespace, an optional sign, then digits with at most one decimal
point and at least one digit overall.  (Exponent notation, `inf`/`nan`
and `_` separators are outside the model.)  Returns the sign, the value
of the integer digits, the value of the fraction digits and the number
of fraction digits; `none` where Python raises `ValueError`. -/
def parseDec? (s : String) : Option (Bool × ℕ × ℕ × ℕ) :=
  let cs0 := stripL s.data
  let neg : Bool := cs0.head? = some '-'
  let cs := if cs0.head? = some '-' ∨ cs0.head? = some '+' then cs0.tail else cs0
  let intPart := cs.takeWhile isDigitC
  let rest := cs.dropWhile isDigitC
  if rest = [] then
    if intPart = [] then none else some (neg, digitsToNat intPart, 0, 0)
  else if rest.head? = some '.' ∧ rest.tail.all isDigitC ∧ ¬(intPart = [] ∧ rest.tail = []) then
    some (neg, digitsToNat intPart, digitsToNat rest.tail, rest.tail.length)
  else none

/-- The exact rational denoted by a parsed decimal literal. -/
def decValue (p : Bool × ℕ × ℕ × ℕ) : ℚ :=
  (if p.1 then -1 else 1) * ((p.2.1 : ℚ) + (p.2.2.1 : ℚ) / 10 ^ p.2.2.2)

/-- Python `float(value)` on a plain decimal literal, as an exact
rational. -/
def parseFloat? (s : String) : Option ℚ :=
  (parseDec? s).map decValue

/-- Python's built-in `round` on an exact value: round half to even. -/
def pyRound (q : ℚ) : ℤ :=
  let f := ⌊q⌋
  let frac := q - f
  if frac < 1/2 then f
  else if 1/2 < frac then f + 1
  else if f % 2 = 0 then f else f + 1

/-- Digit character of `d` (for `d < 10`). -/
def digitChar (d : ℕ) : Char :=
  match d with
  | 0 => '0' | 1 => '1' | 2 => '2' | 3 => '3' | 4 => '4'
  | 5 => '5' | 6 => '6' | 7 => '7' | 8 => '8' | _ => '9'

/-- Little-endian base-10 digits of `n`, driven by explicit fuel so that
the definition is structurally recursive (any `fuel ≥ n` gives the
digits of `n`; `natToDigitList` below instantiates `fuel := n`). -/
def natDigitsRevFuel : ℕ → ℕ → List ℕ
  | 0, _ => []
  | fuel + 1, n => if n = 0 then [] else n % 10 :: natDigitsRevFuel fuel (n / 10)

/-- Big-endian base-10 digits of `n` (empty for `n = 0`). -/
def natToDigitList (n : ℕ) : List ℕ :=
  (natDigitsRevFuel n n).reverse

/-- Decimal rendering of a natural number. -/
def natStr (n : ℕ) : String :=
  if n = 0 then "0" else ⟨(natToDigitList n).map digitChar⟩

/-- The two decimal digits of `r/4` for `r < 4`. -/
def quarterFrac (r : ℕ) : String :=
  match r with
  | 0 => "00"
  | 1 => "25"
  | 2 => "50"
  | _ => "75"

/-- Python two-decimal formatting (the script uses format code .2f) of
the quarter `k/4`, for an integer `k`. -/
def formatQuarter (k : ℤ) : String :=
  (if k < 0 then "-" else "") ++ natStr (k.natAbs / 4) ++ "." ++ quarterFrac (k.natAbs % 4)

/-- Model of `round_to_quarter` (script.py lines 35-44): sentinel inputs map to
`"Unknown"`; otherwise parse as a float, multiply by 4, apply Python
`round`, divide by 4 and format with two decimals; a parse failure
(`ValueError`) yields `"Unknown"`. -/
def round_to_quarter (value : String) : String :=
  if value = "" || value ∈ ["Unknown", "None", ""] then "Unknown"
  else
    match parseFloat? value with
    | none => "Unknown"
    | some time_val => formatQuarter (pyRound (time_val * 4))

/-- Computes `pyRound ((a : ℚ) / b)` for `0 < b`, via integer division. -/
def roundHalfEvenDiv (a : ℤ) (b : ℕ) : ℤ :=
  let f := a / b
  let r := a % b
  if 2 * r < b then f
  else if (b : ℤ) < 2 * r then f + 1
  else if f % 2 = 0 then f else f + 1

/-- The integer rounded to by `round_to_quarter` on a parsed decimal
literal `p`: `pyRound (decValue p * 4)` computed with integers only. -/
def roundQuarterInt (p : Bool × ℕ × ℕ × ℕ) : ℤ :=
  roundHalfEvenDiv ((if p.1 then -1 else 1) * (4 * ((p.2.1 : ℤ) * 10 ^ p.2.2.2 + p.2.2.1)))
    (10 ^ p.2.2.2)

/-- Little-endian digit value, the inverse reading of `natDigitsRevFuel`. -/
def ofDigitsLE (l : List ℕ) : ℕ :=
  l.foldr (fun d acc => d + 10 * acc) 0

/-- One CSV row of `games.csv`.  A missing column is modelled as the
empty string (both are falsy for every check the script performs). -/
structure Game where
  game : String        -- column "Game"
  platform : String    -- column "Platform"
  year : String        -- column "Year"
  genre : String       -- column "Genre"
  gameId : String      -- column "Game Id"
  timeToBeat : String  -- column "Time to Beat"
  score : String       -- column "Score"
  status : String      -- column "Status"
deriving DecidableEq

/-- One value of `game_data_cache.json`: a partial field map. -/
structure CacheEntry where
  genre : Option String := none       -- key "Genre"
  year : Option String := none        -- key "Year"
  gameId : Option String := none      -- key "Game Id"
  timeToBeat : Option String := none  -- key "Time to Beat"
  score : Option String := none       -- key "Score"
deriving DecidableEq

/-- The in-memory cache: lowercased stripped game name to entry. -/
def Cache := String → Option CacheEntry

def emptyEntry : CacheEntry := {}

/-- Python truthiness of a `dict.get(key)` string lookup: the key is
present and its value non-empty. -/
def truthy (v : Option String) : Bool :=
  match v with
  | none => false
  | some s => s ≠ ""

namespace Config

def MAX_GAMES_TO_PROCESS : ℕ := 20
def MAX_CONCURRENT_GAMES : ℕ := 5
def GENRE_BATCH_SIZE : ℕ := 20
/-- The threshold `0.85`, written as an already-normalised rational. -/
def SIMILARITY_THRESHOLD : ℚ := mkRat 85 100
def GENRES_ALLOWED : List String :=
  ["Action", "Action Adventure", "Action Platformer", "Action RPG", "Adventure",
   "Beat \x27em up", "Fighting", "Metroidvania", "Mini-game", "Pinball", "Platformer",
   "Puzzle", "Puzzle Platformer", "Racing", "RPG", "Run and Gun", "Shoot 'em up",
   "Shooter", "Sports", "Strategy", "Survival Horror", "Visual Novel"]

end Config

/-- Python `name.lower().strip()`, the cache key of a game name. -/
def cacheKey (name : String) : String := pyStrip (pyLower name)

/-- Python `needle in hay` substring test. -/
def containsSub (needle hay : String) : Bool :=
  hay.data.tails.any (fun t => needle.data.isPrefixOf t)

/-- Python `not game.get(f) or str(game.get(f)).strip() == ""`: the field is
missing, empty, or whitespace-only. -/
def fieldEmpty (s : String) : Bool := pyStrip s = ""

/-- The per-record HLTB guard (script.py 174-177): some of the four
target fields is truly empty. -/
def needs_hltb (g : Game) : Bool :=
  fieldEmpty g.year || fieldEmpty g.gameId || fieldEmpty g.timeToBeat || fieldEmpty g.score

/-- The work-queue selection predicate (script.py 265-270): some of the
five fields is truly empty. -/
def needsUpdate (g : Game) : Bool :=
  fieldEmpty g.year || fieldEmpty g.genre || fieldEmpty g.gameId ||
    fieldEmpty g.timeToBeat || fieldEmpty g.score

/-- The key of `deduplicate_games`:
`(normalize_field(game.get("Game")).lower(), normalize_field(game.get("Platform")).lower())`. -/
def dedupKey (g : Game) : String × String :=
  (pyLower (normalize_field g.game), pyLower (normalize_field g.platform))

/-- The single pass of `deduplicate_games` carrying the `seen` set. -/
def dedupAux (seen : List (String × String)) : List Game → List Game
  | [] => []
  | g :: gs =>
      let key := dedupKey g
      if key ∈ seen then dedupAux seen gs
      else g :: dedupAux (key :: seen) gs

/-- Model of `deduplicate_games` (script.py 231-249): left-to-right pass keeping
the first record for each key. -/
def deduplicate_games (games : List Game) : List Game :=
  dedupAux [] games

/-- One HowLongToBeat search result.  Numeric library fields are
carried as their string rendering (what `normalize_field` /
`round_to_quarter` receive); a `None` field is the empty string. -/
structure Candidate where
  similarity : ℚ
  review_score : String
  release_world : String
  game_id : String
  main_story : String
deriving DecidableEq

/-- Outcome of one `self.hltb.async_search(name)` call: an exception,
or a (possibly empty) result list. -/
inductive SearchOutcome where
  | err : SearchOutcome
  | ok : List Candidate → SearchOutcome
deriving DecidableEq

/-- Python `max(results, key=lambda x: x.similarity)`: linear scan that
replaces the current best only on a strictly greater key, so the first
of several maximal elements wins. -/
def pyMax (c : Candidate) (cs : List Candidate) : Candidate :=
  cs.foldl (fun best x => if best.similarity < x.similarity then x else best) c

/-- Model of `self.game_cache[key].update({"Score": ..., "Year": ..., "Game Id":
..., "Time to Beat": ...})` preceded by `if key not in self.game_cache:
self.game_cache[key] = {}`: the `Genre` field of an existing entry is
preserved. -/
def Cache.insertHltb (c : Cache) (k score year gid ttb : String) : Cache :=
  fun k' =>
    if k' = k then
      some { (c k).getD emptyEntry with
               score := some score, year := some year,
               gameId := some gid, timeToBeat := some ttb }
    else c k'

/-- Model of `self.game_cache[key]["Genre"] = genre` preceded by the same
existence check: all other fields of the entry are preserved. -/
def Cache.setGenre (c : Cache) (k genre : String) : Cache :=
  fun k' =>
    if k' = k then some { (c k).getD emptyEntry with genre := some genre }
    else c k'

structure HltbResult where
  game : Game
  cache : Cache
  calls : ℕ   -- `hltb.async_search` invocations
  saves : ℕ   -- `_save_cache` invocations

/-- The `try` block of `process_hltb_only` (script.py 195-227). -/
def hltbSearchStep (cache : Cache) (g : Game) (key : String)
    (search : SearchOutcome) : HltbResult :=
  match search with
  | .err => ⟨g, cache, 1, 0⟩
  | .ok [] => ⟨g, cache, 1, 0⟩
  | .ok (c :: cs) =>
      let best := pyMax c cs
      if best.similarity ≥ Config.SIMILARITY_THRESHOLD then
        let score := normalize_field best.review_score
        let year := normalize_field best.release_world
        let gid := normalize_field best.game_id
        let ttb := round_to_quarter best.main_story
        ⟨{ g with score := score, year := year, gameId := gid, timeToBeat := ttb },
          cache.insertHltb key score year gid ttb, 1, 1⟩
      else ⟨g, cache, 1, 0⟩

/-- Model of `GameEnricher.process_hltb_only` (script.py 163-227) on one record,
with the search call's outcome supplied as an oracle. -/
def process_hltb_only (cache : Cache) (g : Game) (search : SearchOutcome) : HltbResult :=
  let platform := pyLower (pyStrip g.platform)
  if containsSub "pico 8" platform then ⟨g, cache, 0, 0⟩
  else if !needs_hltb g then ⟨g, cache, 0, 0⟩
  else
    let key := cacheKey g.game
    match cache key with
    | some cached_data =>
        if truthy cached_data.gameId && truthy cached_data.year then
          ⟨{ g with score := cached_data.score.getD "Unknown",
                    year := cached_data.year.getD "Unknown",
                    gameId := cached_data.gameId.getD "Unknown",
                    timeToBeat := cached_data.timeToBeat.getD "Unknown" },
            cache, 0, 0⟩
        else hltbSearchStep cache g key search
    | none => hltbSearchStep cache g key search

/-- Outcome of one OpenAI batch request: an exception anywhere inside
the `try` block, or a parsed JSON object (an ordered association list,
as iterated by `result_json.items()`) together with optional token
usage `(prompt_tokens, completion_tokens)`. -/
inductive BatchOutcome where
  | err : BatchOutcome
  | ok : List (String × String) → Option (ℕ × ℕ) → BatchOutcome

structure GenresResult where
  games : List Game
  cache : Cache
  calls : ℕ   -- chat-completion requests issued
  saves : ℕ   -- `_save_cache` invocations
  prompt_tokens : ℕ
  completion_tokens : ℕ

/-- Fuel-driven splitting into chunks of `n`; any `fuel ≥ l.length`
yields the chunking of `l` (structural recursion, so that the kernel
can evaluate it). -/
def chunksFuel {α : Type} : ℕ → ℕ → List α → List (List α)
  | 0, _, _ => []
  | _ + 1, _, [] => []
  | fuel + 1, n, x :: xs => (x :: xs.take (n - 1)) :: chunksFuel fuel n (xs.drop (n - 1))

/-- Python `batch = remaining_games[i : i + GENRE_BATCH_SIZE]` over the whole
list: split into chunks of `n` (the script uses `n = 20 > 0`). -/
def chunks {α : Type} (n : ℕ) (l : List α) : List (List α) :=
  chunksFuel l.length n l

/-- The cache-update loop over `result_json.items()` (script.py
144-149): labels outside `GENRES_ALLOWED` are discarded, accepted ones
are written under the lowercased stripped title. -/
def applyResponses (cache : Cache) (resp : List (String × String)) : Cache :=
  resp.foldl
    (fun c p => if p.2 ∈ Config.GENRES_ALLOWED then c.setGenre (cacheKey p.1) p.2 else c)
    cache

/-- Python `if key in self.game_cache and self.game_cache[key].get("Genre")`. -/
def genreCacheHit (cache : Cache) (g : Game) : Bool :=
  match cache (cacheKey g.game) with
  | some e => truthy e.genre
  | none => false

/-- Python `g["Genre"] = self.game_cache[key]["Genre"]` guarded by
`genreCacheHit` (script.py 152-155 and 106-108). -/
def applyCacheGenre (cache : Cache) (g : Game) : Game :=
  match cache (cacheKey g.game) with
  | some e => if truthy e.genre then { g with genre := e.genre.getD "" } else g
  | none => g

/-- The batch loop of `fetch_genres_batch` (script.py 116-161): one
request per batch; a failure leaves the batch untouched and the loop
continues; a success updates the cache from the response, re-applies
the cache to the batch's games, counts usage and saves the cache. -/
def procBatches (oracle : ℕ → BatchOutcome) : ℕ → Cache → List (List Game) → GenresResult
  | _, cache, [] => ⟨[], cache, 0, 0, 0, 0⟩
  | bIdx, cache, batch :: rest =>
      match oracle bIdx with
      | .err =>
          let r := procBatches oracle (bIdx + 1) cache rest
          ⟨batch ++ r.games, r.cache, r.calls + 1, r.saves, r.prompt_tokens,
            r.completion_tokens⟩
      | .ok resp usage =>
          let cache' := applyResponses cache resp
          let batch' := batch.map (applyCacheGenre cache')
          let r := procBatches oracle (bIdx + 1) cache' rest
          ⟨batch' ++ r.games, r.cache, r.calls + 1, r.saves + 1,
            r.prompt_tokens + (usage.map Prod.fst).getD 0,
            r.completion_tokens + (usage.map Prod.snd).getD 0⟩

/-- Reassemble the mutated queue: the script mutates the shared record
dicts in place, so a queue slot that was a cache hit shows the cached
genre, a queue slot that went through the batches shows its processed
version (consumed positionally from `rs`), and other slots are
untouched. -/
def mergeRem (cache : Cache) : List Game → List Game → List Game
  | [], _ => []
  | g :: gs, rs =>
      if fieldEmpty g.genre then
        if genreCacheHit cache g then applyCacheGenre cache g :: mergeRem cache gs rs
        else
          match rs with
          | r :: rs' => r :: mergeRem cache gs rs'
          | [] => g :: mergeRem cache gs []
      else g :: mergeRem cache gs rs

/-- Model of `GameEnricher.fetch_genres_batch` (script.py 95-161), with the
OpenAI requests supplied as an oracle indexed by batch number. -/
def fetch_genres_batch (cache : Cache) (oracle : ℕ → BatchOutcome)
    (games_to_process : List Game) : GenresResult :=
  let target_games := games_to_process.filter (fun g => fieldEmpty g.genre)
  if target_games = [] then ⟨games_to_process, cache, 0, 0, 0, 0⟩
  else
    let remaining_games := games_to_process.filter
      (fun g => fieldEmpty g.genre && !genreCacheHit cache g)
    if remaining_games = [] then ⟨mergeRem cache games_to_process [], cache, 0, 0, 0, 0⟩
    else
      let r := procBatches oracle 0 cache (chunks Config.GENRE_BATCH_SIZE remaining_games)
      { r with games := mergeRem cache games_to_process r.games }

/-- Sequential model of the gathered `process_hltb_only` tasks: each
task owns its record, the shared cache threads through in queue order,
and the per-record search outcomes come from an oracle indexed by queue
position. -/
def hltbLoop (so : ℕ → SearchOutcome) : ℕ → Cache → List Game → List Game × Cache × ℕ × ℕ
  | _, cache, [] => ([], cache, 0, 0)
  | i, cache, g :: gs =>
      let r := process_hltb_only cache g (so i)
      let rest := hltbLoop so (i + 1) r.cache gs
      (r.game :: rest.1, rest.2.1, r.calls + rest.2.2.1, r.saves + rest.2.2.2)

/-- Step 6 of `main` (script.py 291-295): normalize the six fields of a
queue record and re-round `Time to Beat`. -/
def postNormalize (g : Game) : Game :=
  let g' := { g with year := normalize_field g.year, genre := normalize_field g.genre,
                     gameId := normalize_field g.gameId,
                     timeToBeat := normalize_field g.timeToBeat,
                     score := normalize_field g.score,
                     platform := normalize_field g.platform }
  { g' with timeToBeat := round_to_quarter g'.timeToBeat }

/-- Reassemble `all_games` after the queue records were mutated in
place: the first `|queue|` records satisfying `needsUpdate` are
replaced positionally by the processed queue. -/
def mergeQueue : List Game → List Game → List Game
  | [], _ => []
  | g :: gs, q =>
      if needsUpdate g then
        match q with
        | q0 :: qs => q0 :: mergeQueue gs qs
        | [] => g :: mergeQueue gs []
      else g :: mergeQueue gs q

/-- The work queue of a run (script.py 264-273). -/
def workQueue (input : List Game) : List Game :=
  ((deduplicate_games input).filter (fun g => needsUpdate g)).take Config.MAX_GAMES_TO_PROCESS

structure RunResult where
  /-- Final contents of the CSV file (`OVERWRITE_INPUT = True`: the
  input file itself, unchanged when nothing is written). -/
  file : List Game
  cache : Cache
  llmCalls : ℕ
  hltbCalls : ℕ
  saves : ℕ
  /-- Whether step 8 wrote the output file. -/
  wrote : Bool

/-- Model of `main` (script.py 251-309) on an already-parsed CSV, with both
external services supplied as oracles.  File I/O successes are assumed;
a `FileNotFoundError`/`IOError` path only prints. -/
def mainRun (cache : Cache) (genreOracle : ℕ → BatchOutcome)
    (searchOracle : ℕ → SearchOutcome) (input : List Game) : RunResult :=
  let all_games := deduplicate_games input
  let queue := workQueue input
  if queue = [] then ⟨input, cache, 0, 0, 0, false⟩
  else
    let fg := fetch_genres_batch cache genreOracle queue
    let hl := hltbLoop searchOracle 0 fg.cache fg.games
    let queue3 := hl.1.map postNormalize
    ⟨mergeQueue all_games queue3, hl.2.1, fg.calls, hl.2.2.1, fg.saves + hl.2.2.2, true⟩

/-- The spec's Composite Identity Key, verbatim:
`(lower(trim(Name)), lower(trim(Platform)))` — written from the spec's
words, to be compared with the code's `dedupKey`. -/
def specCompositeKey (g : Game) : String × String :=
  (pyLower (pyStrip g.game), pyLower (pyStrip g.platform))

/-- The invariant a written field is supposed to satisfy (claim C2):
the sentinel, or a non-empty, strip-fixed value that is not a
case-variant of "nan"/"null". -/
def goodField (s : String) : Prop :=
  s = "Unknown" ∨ (pyStrip s = s ∧ s ≠ "" ∧ pyLower s ≠ "nan" ∧ pyLower s ≠ "null")

def goodGame (g : Game) : Prop :=
  goodField g.year ∧ goodField g.genre ∧ goodField g.gameId ∧
    goodField g.timeToBeat ∧ goodField g.score ∧ goodField g.platform

instance : DecidablePred goodField := fun s => by unfold goodField; infer_instance

instance : DecidablePred goodGame := fun g => by unfold goodGame; infer_instance

/-- Every record field except `Genre`. -/
def gameFrame (g : Game) : String × String × String × String × String × String × String :=
  (g.game, g.platform, g.year, g.gameId, g.timeToBeat, g.score, g.status)

/-- Every cache-entry field except `Genre` (`none` entry ↦ all-absent). -/
def entryFrame (e? : Option CacheEntry) :
    Option String × Option String × Option String × Option String :=
  match e? with
  | none => (none, none, none, none)
  | some e => (e.year, e.gameId, e.timeToBeat, e.score)

/-- The cache carries no usable genre under key `K`. -/
def cacheGenreMissAt (c : Cache) (K : String) : Prop :=
  ∀ e, c K = some e → truthy e.genre = false

/-- Records used in the C6 counterexample: distinct Composite Identity
Keys ("none" vs "nan") that `normalize_field` collapses to one bucket. -/
def rNone : Game := ⟨"none", "x", "1991", "Action", "1", "7.00", "80", "s"⟩

def rNan : Game := ⟨"nan", "x", "1991", "Action", "1", "7.00", "80", "s"⟩

/-- The empty cache and trivial oracles used by concrete scenarios. -/
def noCache : Cache := fun _ => none

def oracleErr : ℕ → BatchOutcome := fun _ => .err

def oracleNil : ℕ → SearchOutcome := fun _ => .ok []

def gPico : Game := ⟨"Celeste Classic", "Pico 8", "", "", "", "", "", ""⟩

def gEmpty4 : Game := ⟨"foo", "snes", "", "Action", "", "", "", "s"⟩

def growlEntry : CacheEntry := ⟨none, some "1991", some "123", none, none⟩

def growlCache : Cache := fun k => if k = "growl" then some growlEntry else none

def gGrowl : Game := ⟨"Growl", "Mega Drive", "", "", "", "", "", ""⟩

def gGrowlPico : Game := ⟨"Growl", "pico 8", "", "", "", "", "", ""⟩

def candT : Candidate := ⟨mkRat 85 100, "80", "1991", "123", ""⟩

def gW : Game := ⟨"Foo", "snes", "", "", "", "", "", ""⟩

def gPrefilled : Game := ⟨"Bar", "snes", "1991", "Action", "", "", "", "s"⟩

def candLow : Candidate := ⟨mkRat 40 100, "80", "1992", "456", ""⟩

def oracleLow : ℕ → SearchOutcome := fun _ => .ok [candLow]

def gFull : Game := ⟨"Zelda", "snes", "1991", "Action", "1", "7.00", "90", "Done"⟩

def gNeedy : Game := ⟨"Needy", "snes", "", "", "", "", "", ""⟩

def gNeedyOut : Game := ⟨"Needy", "snes", "Unknown", "Unknown", "Unknown", "Unknown",
  "Unknown", ""⟩

def gBad : Game := ⟨"Bad", "snes", "nan", "Action", "9", "x", "80", "s"⟩

def oracleBadLabel : ℕ → BatchOutcome := fun _ => .ok [("Needy", "NotAGenre")] none

/-! ## Theorems -/

theorem pyRound_intCast_div_natCast (a : ℤ) (b : ℕ) (hb : 0 < b) :
    pyRound ((a : ℚ) / (b : ℚ)) = roundHalfEvenDiv a b := by
  have hbQ : (0 : ℚ) < (b : ℚ) := by exact_mod_cast hb
  have hfloor : ⌊(a : ℚ) / (b : ℚ)⌋ = a / (b : ℤ) := Rat.floor_intCast_div_natCast a b
  have hdecomp : a = (b : ℤ) * (a / (b : ℤ)) + a % (b : ℤ) := (Int.ediv_add_emod a b).symm
  have hfrac : (a : ℚ) / (b : ℚ) - ((a / (b : ℤ) : ℤ) : ℚ) = ((a % (b : ℤ) : ℤ) : ℚ) / (b : ℚ) := by
    field_simp
    nth_rewrite 1 [hdecomp]
    push_cast
    ring
  have hlt : ((a % (b : ℤ) : ℤ) : ℚ) / (b : ℚ) < 1 / 2 ↔ 2 * (a % (b : ℤ)) < (b : ℤ) := by
    rw [div_lt_div_iff₀ hbQ two_pos]
    constructor
    · intro h
      have h' : ((2 * (a % (b : ℤ)) : ℤ) : ℚ) < (((b : ℤ) : ℤ) : ℚ) := by push_cast; linarith
      exact_mod_cast h'
    · intro h
      have h' : ((2 * (a % (b : ℤ)) : ℤ) : ℚ) < (((b : ℤ) : ℤ) : ℚ) := by exact_mod_cast h
      push_cast at h'
      linarith
  have hgt : 1 / 2 < ((a % (b : ℤ) : ℤ) : ℚ) / (b : ℚ) ↔ (b : ℤ) < 2 * (a % (b : ℤ)) := by
    rw [div_lt_div_iff₀ two_pos hbQ]
    constructor
    · intro h
      have h' : (((b : ℤ) : ℤ) : ℚ) < ((2 * (a % (b : ℤ)) : ℤ) : ℚ) := by push_cast; linarith
      exact_mod_cast h'
    · intro h
      have h' : (((b : ℤ) : ℤ) : ℚ) < ((2 * (a % (b : ℤ)) : ℤ) : ℚ) := by exact_mod_cast h
      push_cast at h'
      linarith
  unfold pyRound roundHalfEvenDiv
  simp only [hfloor, hfrac]
  by_cases h1 : 2 * (a % (b : ℤ)) < (b : ℤ)
  · rw [if_pos (hlt.mpr h1), if_pos h1]
  · rw [if_neg (fun hc => h1 (hlt.mp hc)), if_neg h1]
    by_cases h2 : (b : ℤ) < 2 * (a % (b : ℤ))
    · rw [if_pos (hgt.mpr h2), if_pos h2]
    · rw [if_neg (fun hc => h2 (hgt.mp hc)), if_neg h2]

theorem pyRound_decValue_mul4 (p : Bool × ℕ × ℕ × ℕ) :
    pyRound (decValue p * 4) = roundQuarterInt p := by
  obtain ⟨neg, n, f, L⟩ := p
  have hb : 0 < (10 : ℕ) ^ L := Nat.pos_pow_of_pos L (by norm_num)
  have hval : decValue (neg, n, f, L) * 4 =
      (((if neg then -1 else 1) * (4 * ((n : ℤ) * 10 ^ L + f)) : ℤ) : ℚ) / (((10 : ℕ) ^ L : ℕ) : ℚ) := by
    unfold decValue
    have h10 : ((10 : ℚ) ^ L) ≠ 0 := by positivity
    cases neg
    · push_cast
      field_simp
      ring
    · push_cast
      field_simp
      ring
  rw [hval, roundQuarterInt, pyRound_intCast_div_natCast _ _ hb]

theorem dropWhile_eq_self_of_not {p : Char → Bool} :
    ∀ l : List Char, (∀ c ∈ l, ¬ p c) → l.dropWhile p = l
  | [], _ => rfl
  | c :: l, h => by
      have hc : p c = false := by simpa using h c (by simp)
      simp [List.dropWhile, hc]

theorem stripL_eq_self {l : List Char} (h : ∀ c ∈ l, ¬ isPyWs c) : stripL l = l := by
  unfold stripL
  rw [dropWhile_eq_self_of_not l h,
    dropWhile_eq_self_of_not l.reverse (fun c hc => h c (List.mem_reverse.mp hc)),
    List.reverse_reverse]

theorem takeWhile_middle {p : Char → Bool} :
    ∀ (l : List Char) (x : Char) (r : List Char), (∀ c ∈ l, p c) → ¬ p x →
      (l ++ x :: r).takeWhile p = l ∧ (l ++ x :: r).dropWhile p = x :: r
  | [], x, r, _, hx => by
      have hpx : p x = false := by simpa using hx
      simp [List.takeWhile, List.dropWhile, hpx]
  | c :: l, x, r, h, hx => by
      have hc : p c = true := h c (by simp)
      have ih := takeWhile_middle l x r (fun d hd => h d (by simp [hd])) hx
      simp [List.takeWhile, List.dropWhile, hc, ih.1, ih.2]

theorem digitVal_digitChar {d : ℕ} (h : d < 10) : digitVal (digitChar d) = d := by
  interval_cases d <;> rfl

theorem isDigitC_digitChar {d : ℕ} (h : d < 10) : isDigitC (digitChar d) = true := by
  interval_cases d <;> rfl

theorem natDigitsRevFuel_lt_ten :
    ∀ fuel n, ∀ d ∈ natDigitsRevFuel fuel n, d < 10
  | 0, _ => by simp [natDigitsRevFuel]
  | fuel + 1, n => by
      by_cases hn : n = 0
      · simp [natDigitsRevFuel, hn]
      · simp only [natDigitsRevFuel, if_neg hn, List.mem_cons]
        rintro d (rfl | hd)
        · exact Nat.mod_lt n (by norm_num)
        · exact natDigitsRevFuel_lt_ten fuel (n / 10) d hd

theorem ofDigitsLE_natDigitsRevFuel :
    ∀ fuel n, n ≤ fuel → ofDigitsLE (natDigitsRevFuel fuel n) = n
  | 0, n, h => by
      have : n = 0 := Nat.le_zero.mp h
      simp [natDigitsRevFuel, ofDigitsLE, this]
  | fuel + 1, n, h => by
      by_cases hn : n = 0
      · simp [natDigitsRevFuel, ofDigitsLE, hn]
      · have hdiv : n / 10 ≤ fuel := by
          have h1 : n / 10 < n := Nat.div_lt_self (Nat.pos_of_ne_zero hn) (by norm_num)
          omega
        have ih := ofDigitsLE_natDigitsRevFuel fuel (n / 10) hdiv
        simp only [natDigitsRevFuel, if_neg hn, ofDigitsLE, List.foldr_cons]
        have : ofDigitsLE (natDigitsRevFuel fuel (n / 10)) = n / 10 := ih
        unfold ofDigitsLE at this
        rw [this]
        omega

theorem digitsToNat_append_one (l : List Char) (c : Char) :
    digitsToNat (l ++ [c]) = 10 * digitsToNat l + digitVal c := by
  unfold digitsToNat
  rw [List.foldl_append]
  rfl

theorem digitsToNat_reverse_map (l : List ℕ) (h : ∀ d ∈ l, d < 10) :
    digitsToNat (l.reverse.map digitChar) = ofDigitsLE l := by
  induction l with
  | nil => rfl
  | cons d l ih =>
      rw [List.reverse_cons, List.map_append, List.map_cons, List.map_nil,
        digitsToNat_append_one, ih (fun e he => h e (by simp [he])),
        digitVal_digitChar (h d (by simp))]
      unfold ofDigitsLE
      simp [Nat.mul_comm]
      omega

theorem digitsToNat_natStr (n : ℕ) : digitsToNat (natStr n).data = n := by
  by_cases hn : n = 0
  · simp [natStr, hn]
    rfl
  · unfold natStr natToDigitList
    rw [if_neg hn]
    show digitsToNat (((natDigitsRevFuel n n).reverse).map digitChar) = n
    rw [digitsToNat_reverse_map _ (natDigitsRevFuel_lt_ten n n),
      ofDigitsLE_natDigitsRevFuel n n le_rfl]

theorem natStr_all_digits (n : ℕ) : ∀ c ∈ (natStr n).data, isDigitC c = true := by
  by_cases hn : n = 0
  · subst hn
    intro c hc
    have hc0 : c = '0' := by simpa [natStr] using hc
    subst hc0
    rfl
  · unfold natStr natToDigitList
    rw [if_neg hn]
    intro c hc
    obtain ⟨d, hd, rfl⟩ := List.mem_map.mp hc
    exact isDigitC_digitChar (natDigitsRevFuel_lt_ten n n d (List.mem_reverse.mp hd))

theorem quarterFrac_spec (r : ℕ) (h : r < 4) :
    digitsToNat (quarterFrac r).data = 25 * r ∧
      (∀ c ∈ (quarterFrac r).data, isDigitC c = true) ∧ (quarterFrac r).data.length = 2 := by
  interval_cases r <;> exact ⟨by decide, by decide, by decide⟩

theorem isPyWs_false_of_digit {c : Char} (h : isDigitC c = true) : isPyWs c = false := by
  have h0 : '0' ≤ c := by
    have := of_decide_eq_true h
    exact this.1
  have hd : ∀ w : Char, w < '0' → decide (c = w) = false := fun w hw =>
    decide_eq_false (fun hc => absurd (hc ▸ h0) (not_le.mpr hw))
  unfold isPyWs
  rw [hd ' ' (by decide), hd '\t' (by decide), hd '\n' (by decide), hd '\r' (by decide),
    hd '\x0b' (by decide), hd '\x0c' (by decide)]
  rfl

theorem formatQuarter_data (k : ℤ) :
    (formatQuarter k).data =
      (if k < 0 then ['-'] else []) ++
        ((natStr (k.natAbs / 4)).data ++ '.' :: (quarterFrac (k.natAbs % 4)).data) := by
  show ((((if k < 0 then "-" else "") ++ natStr (k.natAbs / 4)) ++ ".") ++
      quarterFrac (k.natAbs % 4)).data = _
  rw [String.data_append, String.data_append, String.data_append,
    List.append_assoc, List.append_assoc]
  congr 1
  split <;> rfl

theorem formatQuarter_chars (k : ℤ) :
    ∀ c ∈ (formatQuarter k).data, c = '-' ∨ c = '.' ∨ isDigitC c = true := by
  intro c hc
  rw [formatQuarter_data] at hc
  rcases List.mem_append.mp hc with h | h
  · left
    revert h
    split <;> simp
  · rcases List.mem_append.mp h with h | h
    · exact Or.inr (Or.inr (natStr_all_digits _ c h))
    · rcases List.mem_cons.mp h with h | h
      · exact Or.inr (Or.inl h)
      · exact Or.inr (Or.inr ((quarterFrac_spec _ (Nat.mod_lt _ (by norm_num))).2.1 c h))

theorem formatQuarter_no_ws (k : ℤ) : ∀ c ∈ (formatQuarter k).data, ¬ isPyWs c = true := by
  intro c hc
  rcases formatQuarter_chars k c hc with rfl | rfl | h
  · decide
  · decide
  · simp [isPyWs_false_of_digit h]

theorem natStr_ne_nil (n : ℕ) : (natStr n).data ≠ [] := by
  by_cases hn : n = 0
  · subst hn
    decide
  · unfold natStr natToDigitList
    rw [if_neg hn]
    obtain ⟨m, rfl⟩ := Nat.exists_eq_succ_of_ne_zero hn
    simp [natDigitsRevFuel]

theorem parseDec?_formatQuarter (k : ℤ) :
    parseDec? (formatQuarter k) =
      some (decide (k < 0), k.natAbs / 4, 25 * (k.natAbs % 4), 2) := by
  have hr : k.natAbs % 4 < 4 := Nat.mod_lt _ (by norm_num)
  obtain ⟨hfv, hfa, hfl⟩ := quarterFrac_spec (k.natAbs % 4) hr
  have hmid := takeWhile_middle (p := isDigitC) (natStr (k.natAbs / 4)).data '.'
      (quarterFrac (k.natAbs % 4)).data (natStr_all_digits _) (by decide)
  have hallfrac : (quarterFrac (k.natAbs % 4)).data.all isDigitC = true :=
    List.all_eq_true.mpr (fun c hc => hfa c hc)
  simp only [parseDec?]
  rw [stripL_eq_self (formatQuarter_no_ws k), formatQuarter_data]
  by_cases hk : k < 0
  · rw [if_pos hk]
    simp only [List.singleton_append, List.head?_cons, List.tail_cons]
    rw [if_pos (Or.inl trivial)]
    rw [hmid.1, hmid.2]
    rw [if_neg (by simp)]
    rw [if_pos ⟨rfl, by simpa using hallfrac, fun h => absurd h.1 (natStr_ne_nil _)⟩]
    rw [digitsToNat_natStr]
    simp only [List.tail_cons]
    rw [hfv, hfl]
    simp [hk]
  · rw [if_neg hk]
    simp only [List.nil_append]
    obtain ⟨d, l, hd⟩ : ∃ d l, (natStr (k.natAbs / 4)).data = d :: l := by
      cases h : (natStr (k.natAbs / 4)).data with
      | nil => exact absurd h (natStr_ne_nil _)
      | cons d l => exact ⟨d, l, rfl⟩
    have hdd : isDigitC d = true := natStr_all_digits _ d (by rw [hd]; simp)
    have hdm : d ≠ '-' := fun h => by rw [h] at hdd; exact absurd hdd (by decide)
    have hdp : d ≠ '+' := fun h => by rw [h] at hdd; exact absurd hdd (by decide)
    rw [hd] at hmid ⊢
    simp only [List.cons_append, List.head?_cons] at hmid ⊢
    rw [if_neg (show ¬(some d = some '-' ∨ some d = some '+') from by simp [hdm, hdp])]
    rw [hmid.1, hmid.2]
    rw [if_neg (by simp)]
    rw [if_pos ⟨rfl, by simpa using hallfrac, fun h => by simp at h⟩]
    simp only [List.tail_cons]
    rw [show digitsToNat (d :: l) = k.natAbs / 4 from by rw [← hd, digitsToNat_natStr]]
    rw [hfv, hfl]
    simp [hk, hdm]

theorem pyRound_intCast (k : ℤ) : pyRound (k : ℚ) = k := by
  unfold pyRound
  rw [Int.floor_intCast]
  rw [if_pos (by norm_num)]

theorem decValue_quarter (k : ℤ) :
    decValue (decide (k < 0), k.natAbs / 4, 25 * (k.natAbs % 4), 2) * 4 = (k : ℚ) := by
  unfold decValue
  have habsQ : 4 * ((k.natAbs / 4 : ℕ) : ℚ) + ((k.natAbs % 4 : ℕ) : ℚ) = (k.natAbs : ℚ) := by
    exact_mod_cast Nat.div_add_mod k.natAbs 4
  by_cases hk : k < 0
  · rw [decide_eq_true hk, if_pos rfl]
    have hcast : ((k.natAbs : ℕ) : ℚ) = -(k : ℚ) := by
      rw [Int.cast_natAbs]
      simp [abs_of_neg (show (k : ℚ) < 0 from by exact_mod_cast hk)]
    rw [hcast] at habsQ
    push_cast
    field_simp
    linarith
  · rw [decide_eq_false hk, if_neg (by simp)]
    have hcast : ((k.natAbs : ℕ) : ℚ) = (k : ℚ) := by
      rw [Int.cast_natAbs]
      simp [abs_of_nonneg (show (0 : ℚ) ≤ (k : ℚ) from by exact_mod_cast not_lt.mp hk)]
    rw [hcast] at habsQ
    push_cast
    field_simp
    linarith

/-- Every result of `round_to_quarter` is the sentinel or a formatted
quarter. -/
theorem round_to_quarter_cases (s : String) :
    round_to_quarter s = "Unknown" ∨ ∃ k : ℤ, round_to_quarter s = formatQuarter k := by
  unfold round_to_quarter
  split
  · exact Or.inl rfl
  · split
    · exact Or.inl rfl
    · exact Or.inr ⟨_, rfl⟩

theorem formatQuarter_ne_sentinel (k : ℤ) :
    (formatQuarter k = "" || formatQuarter k ∈ ["Unknown", "None", ""]) = false := by
  have hdot : ('.' : Char) ∈ (formatQuarter k).data := by
    rw [formatQuarter_data]
    simp
  have hne : ∀ t : String, ('.' : Char) ∉ t.data → formatQuarter k ≠ t := by
    intro t ht h
    exact ht (h ▸ hdot)
  refine Bool.or_eq_false_iff.mpr ⟨decide_eq_false (hne "" (by decide)), decide_eq_false ?_⟩
  intro hmem
  rcases List.mem_cons.mp hmem with h | hmem
  · exact hne "Unknown" (by decide) h
  rcases List.mem_cons.mp hmem with h | hmem
  · exact hne "None" (by decide) h
  rcases List.mem_cons.mp hmem with h | hmem
  · exact hne "" (by decide) h
  · simp at hmem

theorem round_to_quarter_formatQuarter (k : ℤ) :
    round_to_quarter (formatQuarter k) = formatQuarter k := by
  unfold round_to_quarter
  rw [formatQuarter_ne_sentinel]
  simp only [Bool.false_eq_true, if_false]
  rw [show parseFloat? (formatQuarter k)
        = some (decValue (decide (k < 0), k.natAbs / 4, 25 * (k.natAbs % 4), 2)) from by
      unfold parseFloat?
      rw [parseDec?_formatQuarter]
      rfl]
  show formatQuarter
      (pyRound (decValue (decide (k < 0), k.natAbs / 4, 25 * (k.natAbs % 4), 2) * 4)) =
    formatQuarter k
  rw [decValue_quarter, pyRound_intCast]

/-- The function `round_to_quarter` is idempotent. -/
theorem round_to_quarter_idem (s : String) :
    round_to_quarter (round_to_quarter s) = round_to_quarter s := by
  rcases round_to_quarter_cases s with h | ⟨k, h⟩
  · rw [h]
    decide
  · rw [h]
    exact round_to_quarter_formatQuarter k

/-- Python `round` lands within 1/2 of its argument. -/
theorem pyRound_close (q : ℚ) : |(pyRound q : ℚ) - q| ≤ 1 / 2 := by
  have h1 : (⌊q⌋ : ℚ) ≤ q := Int.floor_le q
  have h2 : q < ⌊q⌋ + 1 := Int.lt_floor_add_one q
  simp only [pyRound]
  split
  · rw [abs_sub_comm, abs_of_nonneg (by linarith)]
    linarith [le_of_lt (by assumption : q - (⌊q⌋ : ℚ) < 1 / 2)]
  · split
    · rw [abs_of_nonneg (by push_cast; linarith)]
      push_cast
      linarith [le_of_lt (by assumption : (1 : ℚ) / 2 < q - ⌊q⌋)]
    · have hfr : q - (⌊q⌋ : ℚ) = 1 / 2 := le_antisymm (not_lt.mp (by assumption)) (not_lt.mp (by assumption))
      split
      · rw [abs_sub_comm, abs_of_nonneg (by linarith)]
        linarith
      · rw [abs_of_nonneg (by push_cast; linarith)]
        push_cast
        linarith

/-- Concrete evaluation: `round_to_quarter "7.1" = "7.00"` (Python:
`round(7.1 * 4) = round(28.4) = 28`, `28 / 4 = 7.0`). -/
theorem round_to_quarter_71 : round_to_quarter "7.1" = "7.00" := by
  rw [show round_to_quarter "7.1"
        = formatQuarter (pyRound (decValue (false, 7, 1, 1) * 4)) from rfl,
    pyRound_decValue_mul4]
  decide

/-- Concrete evaluation: `round_to_quarter "7.13" = "7.25"` (Python:
`round(7.13 * 4) = round(28.52) = 29`, `29 / 4 = 7.25`). -/
theorem round_to_quarter_713 : round_to_quarter "7.13" = "7.25" := by
  rw [show round_to_quarter "7.13"
        = formatQuarter (pyRound (decValue (false, 7, 13, 2) * 4)) from rfl,
    pyRound_decValue_mul4]
  decide

/-- A non-sentinel result of `round_to_quarter` is the parsed input
rounded to a nearest multiple of 0.25, printed with exactly two decimal
digits. -/
theorem round_to_quarter_nearest (s : String) (h : round_to_quarter s ≠ "Unknown") :
    ∃ q k, parseFloat? s = some q ∧ round_to_quarter s = formatQuarter k ∧
      |(k : ℚ) / 4 - q| ≤ 1 / 8 ∧ (∀ m : ℤ, |(k : ℚ) / 4 - q| ≤ |(m : ℚ) / 4 - q|) ∧
      ∃ a b : String, round_to_quarter s = a ++ "." ++ b ∧ b.data.length = 2 ∧
        ∀ c ∈ b.data, isDigitC c = true := by
  by_cases hg : (s = "" || s ∈ ["Unknown", "None", ""]) = true
  · exact absurd (by unfold round_to_quarter; rw [if_pos hg]) h
  cases hq : parseFloat? s with
  | none => exact absurd (by unfold round_to_quarter; rw [if_neg hg, hq]) h
  | some q =>
    have he : round_to_quarter s = formatQuarter (pyRound (q * 4)) := by
      unfold round_to_quarter
      rw [if_neg hg, hq]
    set k := pyRound (q * 4) with hkdef
    have hclose : |(k : ℚ) - q * 4| ≤ 1 / 2 := pyRound_close (q * 4)
    have h18 : |(k : ℚ) / 4 - q| ≤ 1 / 8 := by
      have hrw : (k : ℚ) / 4 - q = ((k : ℚ) - q * 4) / 4 := by ring
      rw [hrw, abs_div, abs_of_pos (show (0 : ℚ) < 4 by norm_num)]
      linarith
    refine ⟨q, k, rfl, he, h18, ?_, ?_⟩
    · intro m
      by_cases hm : m = k
      · subst hm
        exact le_refl _
      · have hmk : (1 : ℚ) ≤ |(m : ℚ) - (k : ℚ)| := by
          have h1 : (1 : ℤ) ≤ |m - k| := Int.one_le_abs (sub_ne_zero.mpr hm)
          calc (1 : ℚ) ≤ ((|m - k| : ℤ) : ℚ) := by exact_mod_cast h1
            _ = |(m : ℚ) - (k : ℚ)| := by push_cast [Int.cast_abs]; ring_nf
        have hA : (m : ℚ) / 4 - q = ((m : ℚ) - k) / 4 + ((k : ℚ) / 4 - q) := by ring
        have htri : |((m : ℚ) - k) / 4| ≤
            |((m : ℚ) - k) / 4 + ((k : ℚ) / 4 - q)| + |(k : ℚ) / 4 - q| := by
          have habs := abs_add (((m : ℚ) - k) / 4 + ((k : ℚ) / 4 - q)) (-((k : ℚ) / 4 - q))
          rw [add_neg_cancel_right, abs_neg] at habs
          exact habs
        have hq4 : (1 : ℚ) / 4 ≤ |((m : ℚ) - k) / 4| := by
          rw [abs_div, abs_of_pos (show (0 : ℚ) < 4 by norm_num)]
          linarith
        rw [hA]
        linarith
    · refine ⟨(if k < 0 then "-" else "") ++ natStr (k.natAbs / 4),
        quarterFrac (k.natAbs % 4), by rw [he]; rfl,
        (quarterFrac_spec _ (Nat.mod_lt _ (by norm_num))).2.2,
        (quarterFrac_spec _ (Nat.mod_lt _ (by norm_num))).2.1⟩

theorem lower_normalize (v : String) :
    pyLower (normalize_field v) =
      if pyLower (pyStrip v) ∈ ["", "none", "nan", "null", "unknown"] then "unknown"
      else pyLower (pyStrip v) := by
  unfold normalize_field
  split
  · next h => rw [if_pos h]; rfl
  · next h => rw [if_neg h]

theorem dedupKey_eq_of_specKey_eq {a b : Game}
    (h : specCompositeKey a = specCompositeKey b) : dedupKey a = dedupKey b := by
  have h1 : pyLower (pyStrip a.game) = pyLower (pyStrip b.game) := congrArg Prod.fst h
  have h2 : pyLower (pyStrip a.platform) = pyLower (pyStrip b.platform) := congrArg Prod.snd h
  unfold dedupKey
  rw [lower_normalize, lower_normalize, lower_normalize, lower_normalize, h1, h2]

theorem dedupAux_subset : ∀ (seen : List (String × String)) (l : List Game),
    ∀ g ∈ dedupAux seen l, g ∈ l
  | _, [], g, h => by simp [dedupAux] at h
  | seen, x :: xs, g, h => by
      unfold dedupAux at h
      by_cases hk : dedupKey x ∈ seen
      · rw [if_pos hk] at h
        exact List.mem_cons_of_mem _ (dedupAux_subset seen xs g h)
      · rw [if_neg hk] at h
        rcases List.mem_cons.mp h with rfl | h
        · exact List.mem_cons_self _ _
        · exact List.mem_cons_of_mem _ (dedupAux_subset _ xs g h)

theorem dedupAux_length : ∀ (seen : List (String × String)) (l : List Game),
    (dedupAux seen l).length ≤ l.length
  | _, [] => le_refl _
  | seen, x :: xs => by
      unfold dedupAux
      by_cases hk : dedupKey x ∈ seen
      · rw [if_pos hk]
        exact le_trans (dedupAux_length seen xs) (by simp)
      · rw [if_neg hk]
        simpa using dedupAux_length (dedupKey x :: seen) xs

theorem dedupAux_inv : ∀ (seen : List (String × String)) (l : List Game),
    (∀ g ∈ dedupAux seen l, dedupKey g ∉ seen) ∧
      List.Pairwise (fun a b => dedupKey a ≠ dedupKey b) (dedupAux seen l)
  | _, [] => by simp [dedupAux]
  | seen, x :: xs => by
      unfold dedupAux
      by_cases hk : dedupKey x ∈ seen
      · rw [if_pos hk]
        exact dedupAux_inv seen xs
      · rw [if_neg hk]
        obtain ⟨hmem, hpw⟩ := dedupAux_inv (dedupKey x :: seen) xs
        refine ⟨?_, ?_⟩
        · intro g hg
          rcases List.mem_cons.mp hg with rfl | hg
          · exact hk
          · exact fun hc => hmem g hg (List.mem_cons_of_mem _ hc)
        · refine List.pairwise_cons.mpr ⟨?_, hpw⟩
          intro g hg
          exact fun hc => hmem g hg (by rw [← hc]; exact List.mem_cons_self _ _)

theorem dedupAux_filter (k : String × String) :
    ∀ (seen : List (String × String)) (l : List Game),
      (dedupAux seen l).filter (fun g => decide (dedupKey g = k)) =
        if k ∈ seen then [] else (l.filter (fun g => decide (dedupKey g = k))).take 1
  | seen, [] => by simp [dedupAux]
  | seen, x :: xs => by
      unfold dedupAux
      by_cases hk : dedupKey x ∈ seen
      · rw [if_pos hk, dedupAux_filter k seen xs]
        by_cases hxk : dedupKey x = k
        · subst hxk
          rw [if_pos hk, if_pos hk]
        · rw [List.filter_cons_of_neg (by simpa using hxk)]
      · rw [if_neg hk]
        by_cases hxk : dedupKey x = k
        · subst hxk
          rw [List.filter_cons_of_pos (by simp), List.filter_cons_of_pos (by simp),
            dedupAux_filter _ (dedupKey x :: seen) xs,
            if_pos (List.mem_cons_self _ _), if_neg hk]
          simp
        · rw [List.filter_cons_of_neg (by simpa using hxk),
            List.filter_cons_of_neg (by simpa using hxk),
            dedupAux_filter k (dedupKey x :: seen) xs]
          by_cases hks : k ∈ seen
          · rw [if_pos (List.mem_cons_of_mem _ hks), if_pos hks]
          · rw [if_neg (by
                simp only [List.mem_cons]
                rintro (h | h)
                exacts [hxk h.symm, hks h]), if_neg hks]

theorem pyMax_spec (c : Candidate) (cs : List Candidate) :
    pyMax c cs ∈ c :: cs ∧ (∀ x ∈ c :: cs, x.similarity ≤ (pyMax c cs).similarity) ∧
      ∃ l1 l2, c :: cs = l1 ++ pyMax c cs :: l2 ∧
        ∀ x ∈ l1, x.similarity < (pyMax c cs).similarity := by
  induction cs generalizing c with
  | nil =>
      exact ⟨by simp [pyMax], by simp [pyMax], [], [], by simp [pyMax], by simp⟩
  | cons x cs ih =>
      have hfold : pyMax c (x :: cs) = pyMax (if c.similarity < x.similarity then x else c) cs :=
        rfl
      by_cases hcx : c.similarity < x.similarity
      · rw [hfold, if_pos hcx]
        obtain ⟨hmem, hmax, l1, l2, hdec, hlt⟩ := ih x
        have hxle : x.similarity ≤ (pyMax x cs).similarity := hmax x (List.mem_cons_self _ _)
        refine ⟨List.mem_cons_of_mem _ hmem, ?_, c :: l1, l2, ?_, ?_⟩
        · intro y hy
          rcases List.mem_cons.mp hy with rfl | hy
          · exact le_of_lt (lt_of_lt_of_le hcx hxle)
          · exact hmax y hy
        · rw [List.cons_append, ← hdec]
        · intro y hy
          rcases List.mem_cons.mp hy with rfl | hy
          · exact lt_of_lt_of_le hcx hxle
          · exact hlt y hy
      · rw [hfold, if_neg hcx]
        have hxc : x.similarity ≤ c.similarity := not_lt.mp hcx
        obtain ⟨hmem, hmax, l1, l2, hdec, hlt⟩ := ih c
        have hcle : c.similarity ≤ (pyMax c cs).similarity := hmax c (List.mem_cons_self _ _)
        refine ⟨?_, ?_, ?_⟩
        · rcases List.mem_cons.mp hmem with h | h
          · rw [h]
            exact List.mem_cons_self _ _
          · exact List.mem_cons_of_mem _ (List.mem_cons_of_mem _ h)
        · intro y hy
          rcases List.mem_cons.mp hy with rfl | hy
          · exact hcle
          rcases List.mem_cons.mp hy with rfl | hy
          · exact le_trans hxc hcle
          · exact hmax y (List.mem_cons_of_mem _ hy)
        · cases l1 with
          | nil =>
              have hc : c = pyMax c cs := by simpa using congrArg (fun t => t.head?) hdec
              refine ⟨[], x :: cs, by simp [← hc], by simp⟩
          | cons a l1' =>
              rw [List.cons_append] at hdec
              obtain ⟨ha, htail⟩ := List.cons.injEq .. ▸ hdec
              have hclt : c.similarity < (pyMax c cs).similarity := by
                calc c.similarity = a.similarity := by rw [ha]
                  _ < (pyMax c cs).similarity := hlt a (List.mem_cons_self _ _)
              refine ⟨c :: x :: l1', l2, ?_, ?_⟩
              · rw [List.cons_append, List.cons_append]
                exact congrArg (fun t => c :: x :: t) htail
              · intro y hy
                rcases List.mem_cons.mp hy with rfl | hy
                · exact hclt
                rcases List.mem_cons.mp hy with rfl | hy
                · exact lt_of_le_of_lt hxc hclt
                · exact hlt y (List.mem_cons_of_mem _ hy)

theorem dropWhile_head_false {p : Char → Bool} :
    ∀ (l : List Char) (a : Char), (l.dropWhile p).head? = some a → p a = false
  | [], a, h => by simp [List.dropWhile] at h
  | c :: t, a, h => by
      by_cases hc : p c
      · rw [List.dropWhile_cons_of_pos hc] at h
        exact dropWhile_head_false t a h
      · rw [List.dropWhile_cons_of_neg hc] at h
        simp at h
        subst h
        simpa using hc

theorem dropWhile_eq_self_of_head {p : Char → Bool} (l : List Char)
    (h : ∀ a, l.head? = some a → p a = false) : l.dropWhile p = l := by
  cases l with
  | nil => rfl
  | cons a t => exact List.dropWhile_cons_of_neg (by simpa using h a rfl)

theorem dropWhile_idem {p : Char → Bool} (l : List Char) :
    (l.dropWhile p).dropWhile p = l.dropWhile p :=
  dropWhile_eq_self_of_head _ (fun a h => dropWhile_head_false l a h)

theorem dropWhile_suffix_decomp {p : Char → Bool} :
    ∀ l : List Char, ∃ t, l = t ++ l.dropWhile p
  | [] => ⟨[], rfl⟩
  | c :: t => by
      by_cases hc : p c
      · obtain ⟨u, hu⟩ := dropWhile_suffix_decomp (p := p) t
        exact ⟨c :: u, by rw [List.dropWhile_cons_of_pos hc, List.cons_append, ← hu]⟩
      · exact ⟨[], by rw [List.dropWhile_cons_of_neg hc, List.nil_append]⟩

/-- Right strip, `reverse (dropWhile p (reverse x))`, is a prefix of
`x`. -/
theorem rstrip_decomp {p : Char → Bool} (x : List Char) :
    ∃ t, x = (x.reverse.dropWhile p).reverse ++ t := by
  obtain ⟨u, hu⟩ := dropWhile_suffix_decomp (p := p) x.reverse
  refine ⟨u.reverse, ?_⟩
  calc x = x.reverse.reverse := (List.reverse_reverse x).symm
    _ = (u ++ x.reverse.dropWhile p).reverse := by rw [← hu]
    _ = (x.reverse.dropWhile p).reverse ++ u.reverse := List.reverse_append ..

theorem stripL_idem (l : List Char) : stripL (stripL l) = stripL l := by
  unfold stripL
  set y := l.dropWhile isPyWs with hy
  have hyhead : ∀ a, y.head? = some a → isPyWs a = false :=
    fun a h => dropWhile_head_false l a h
  set z := (y.reverse.dropWhile isPyWs).reverse with hz
  have hzy : ∃ t, y = z ++ t := rstrip_decomp y
  have hzhead : ∀ a, z.head? = some a → isPyWs a = false := by
    intro a ha
    obtain ⟨t, ht⟩ := hzy
    apply hyhead a
    rw [ht]
    cases hzc : z with
    | nil => rw [hzc] at ha; simp at ha
    | cons b w =>
        rw [hzc] at ha
        simp at ha
        subst ha
        simp
  have h1 : z.dropWhile isPyWs = z := dropWhile_eq_self_of_head z hzhead
  rw [h1]
  conv_lhs => rw [hz]
  rw [List.reverse_reverse, dropWhile_idem]

theorem pyStrip_idem (s : String) : pyStrip (pyStrip s) = pyStrip s := by
  unfold pyStrip
  exact congrArg String.mk (stripL_idem s.data)

theorem pyLower_empty_iff (s : String) : pyLower s = "" ↔ s = "" := by
  unfold pyLower
  constructor
  · intro h
    have : s.data.map lowerChar = [] := congrArg String.data h
    cases hs : s.data with
    | nil => cases s; simpa using congrArg String.mk hs
    | cons a t => rw [hs] at this; simp at this
  · intro h
    rw [h]
    rfl

theorem normalize_field_good (s : String) : goodField (normalize_field s) := by
  simp only [normalize_field]
  split
  · exact Or.inl rfl
  · next h =>
      simp only [List.mem_cons, List.not_mem_nil, or_false] at h
      push_neg at h
      obtain ⟨h0, _, hnan, hnull, _⟩ := h
      refine Or.inr ⟨pyStrip_idem s, ?_, hnan, hnull⟩
      intro hc
      exact h0 (by rw [hc]; rfl)

theorem normalize_field_of_empty {s : String} (h : fieldEmpty s = true) :
    normalize_field s = "Unknown" := by
  have hs : pyStrip s = "" := by simpa [fieldEmpty] using h
  simp only [normalize_field]
  rw [if_pos (by rw [hs]; exact List.mem_cons.mpr (Or.inl (by decide)))]

theorem map_eq_self {f : Char → Char} :
    ∀ l : List Char, (∀ c ∈ l, f c = c) → l.map f = l
  | [], _ => rfl
  | c :: t, h => by
      rw [List.map_cons, h c (by simp), map_eq_self t (fun d hd => h d (by simp [hd]))]

theorem lowerChar_eq_self_of {c : Char} (h : c = '-' ∨ c = '.' ∨ isDigitC c = true) :
    lowerChar c = c := by
  rcases h with rfl | rfl | h
  · decide
  · decide
  · unfold lowerChar
    rw [if_neg ?hn]
    case hn =>
      rintro ⟨hA, -⟩
      have h9 : c ≤ '9' := (of_decide_eq_true h).2
      exact absurd hA (not_le.mpr (lt_of_le_of_lt h9 (by decide)))

/-- The map `pyLower` fixes a formatted quarter (its characters are digits,
`'-'` and `'.'`). -/
theorem pyLower_formatQuarter (k : ℤ) : pyLower (formatQuarter k) = formatQuarter k := by
  have h : (formatQuarter k).data.map lowerChar = (formatQuarter k).data :=
    map_eq_self _ (fun c hc => lowerChar_eq_self_of (formatQuarter_chars k c hc))
  unfold pyLower
  rw [h]

theorem gameFrame_applyCacheGenre (cache : Cache) (g : Game) :
    gameFrame (applyCacheGenre cache g) = gameFrame g := by
  unfold applyCacheGenre
  cases cache (cacheKey g.game) with
  | none => rfl
  | some e =>
      show gameFrame (if truthy e.genre = true then { g with genre := e.genre.getD "" } else g)
        = gameFrame g
      by_cases h : truthy e.genre = true
      · rw [if_pos h]
        rfl
      · rw [if_neg h]

theorem entryFrame_setGenre (c : Cache) (k genre : String) (k' : String) :
    entryFrame ((c.setGenre k genre) k') = entryFrame (c k') := by
  unfold Cache.setGenre
  by_cases h : k' = k
  · rw [if_pos h, h]
    cases c k with
    | none => rfl
    | some e => rfl
  · rw [if_neg h]

theorem entryFrame_applyResponses (resp : List (String × String)) :
    ∀ (c : Cache) (k' : String), entryFrame (applyResponses c resp k') = entryFrame (c k') := by
  induction resp with
  | nil => intro c k'; rfl
  | cons p ps ih =>
      intro c k'
      show entryFrame (applyResponses (if p.2 ∈ Config.GENRES_ALLOWED
          then c.setGenre (cacheKey p.1) p.2 else c) ps k') = entryFrame (c k')
      by_cases h : p.2 ∈ Config.GENRES_ALLOWED
      · rw [if_pos h, ih, entryFrame_setGenre]
      · rw [if_neg h, ih]

theorem procBatches_entryFrame (oracle : ℕ → BatchOutcome) :
    ∀ (bs : List (List Game)) (bIdx : ℕ) (cache : Cache) (k : String),
      entryFrame ((procBatches oracle bIdx cache bs).cache k) = entryFrame (cache k)
  | [], _, _, _ => rfl
  | b :: bs, bIdx, cache, k => by
      unfold procBatches
      cases oracle bIdx with
      | err => exact procBatches_entryFrame oracle bs (bIdx + 1) cache k
      | ok resp usage =>
          exact (procBatches_entryFrame oracle bs (bIdx + 1) (applyResponses cache resp) k).trans
            (entryFrame_applyResponses resp cache k)

theorem procBatches_gameFrame (oracle : ℕ → BatchOutcome) :
    ∀ (bs : List (List Game)) (bIdx : ℕ) (cache : Cache),
      (procBatches oracle bIdx cache bs).games.map gameFrame = bs.flatten.map gameFrame
  | [], _, _ => rfl
  | b :: bs, bIdx, cache => by
      unfold procBatches
      cases oracle bIdx with
      | err =>
          show (b ++ (procBatches oracle (bIdx + 1) cache bs).games).map gameFrame
            = ((b :: bs).flatten).map gameFrame
          rw [List.flatten_cons, List.map_append, List.map_append,
            procBatches_gameFrame oracle bs (bIdx + 1) cache]
      | ok resp usage =>
          show ((b.map (applyCacheGenre (applyResponses cache resp))) ++
              (procBatches oracle (bIdx + 1) (applyResponses cache resp) bs).games).map gameFrame
            = ((b :: bs).flatten).map gameFrame
          rw [List.flatten_cons, List.map_append, List.map_append,
            procBatches_gameFrame oracle bs (bIdx + 1) _, List.map_map]
          congr 1
          exact List.map_congr_left (fun g _ => gameFrame_applyCacheGenre _ g)

theorem procBatches_calls (oracle : ℕ → BatchOutcome) :
    ∀ (bs : List (List Game)) (bIdx : ℕ) (cache : Cache),
      (procBatches oracle bIdx cache bs).calls = bs.length
  | [], _, _ => rfl
  | b :: bs, bIdx, cache => by
      unfold procBatches
      cases oracle bIdx with
      | err =>
          show (procBatches oracle (bIdx + 1) cache bs).calls + 1 = (b :: bs).length
          rw [List.length_cons]
          exact congrArg (· + 1) (procBatches_calls oracle bs _ _)
      | ok resp usage =>
          show (procBatches oracle (bIdx + 1) (applyResponses cache resp) bs).calls + 1
            = (b :: bs).length
          rw [List.length_cons]
          exact congrArg (· + 1) (procBatches_calls oracle bs _ _)

theorem chunksFuel_join {α : Type} :
    ∀ (fuel n : ℕ) (l : List α), l.length ≤ fuel → (chunksFuel fuel n l).flatten = l
  | 0, _, l, h => by
      have : l = [] := List.eq_nil_of_length_eq_zero (Nat.le_zero.mp h)
      simp [this, chunksFuel]
  | fuel + 1, n, [], _ => rfl
  | fuel + 1, n, x :: xs, h => by
      have hlen : (xs.drop (n - 1)).length ≤ fuel := by
        rw [List.length_drop]
        have : xs.length ≤ fuel := by simpa using h
        omega
      show (x :: xs.take (n - 1)) ++ (chunksFuel fuel n (xs.drop (n - 1))).flatten = x :: xs
      rw [chunksFuel_join fuel n _ hlen, List.cons_append, List.take_append_drop]

theorem chunks_join {α : Type} (n : ℕ) (l : List α) : (chunks n l).flatten = l :=
  chunksFuel_join l.length n l le_rfl

theorem mergeQueue_mem : ∀ (l q : List Game) (g : Game), g ∈ mergeQueue l q → g ∈ l ∨ g ∈ q
  | [], _, g, h => by simp [mergeQueue] at h
  | x :: xs, q, g, h => by
      unfold mergeQueue at h
      by_cases hx : needsUpdate x = true
      · rw [if_pos hx] at h
        cases q with
        | nil =>
            rcases List.mem_cons.mp h with rfl | h
            · exact Or.inl (List.mem_cons_self _ _)
            · rcases mergeQueue_mem xs [] g h with h | h
              · exact Or.inl (List.mem_cons_of_mem _ h)
              · simp at h
        | cons q0 qs =>
            rcases List.mem_cons.mp h with rfl | h
            · exact Or.inr (List.mem_cons_self _ _)
            · rcases mergeQueue_mem xs qs g h with h | h
              · exact Or.inl (List.mem_cons_of_mem _ h)
              · exact Or.inr (List.mem_cons_of_mem _ h)
      · rw [if_neg hx] at h
        rcases List.mem_cons.mp h with rfl | h
        · exact Or.inl (List.mem_cons_self _ _)
        · rcases mergeQueue_mem xs q g h with h | h
          · exact Or.inl (List.mem_cons_of_mem _ h)
          · exact Or.inr h

theorem setGenre_other {c : Cache} {k K : String} (h : k ≠ K) (genre : String) :
    (c.setGenre k genre) K = c K := by
  unfold Cache.setGenre
  rw [if_neg (fun hc => h hc.symm)]

theorem applyResponses_missAt {K : String} :
    ∀ (resp : List (String × String)) (c : Cache),
      (∀ p ∈ resp, p.2 ∈ Config.GENRES_ALLOWED → cacheKey p.1 ≠ K) →
      cacheGenreMissAt c K → cacheGenreMissAt (applyResponses c resp) K
  | [], c, _, hm => hm
  | p :: ps, c, hno, hm => by
      show cacheGenreMissAt (applyResponses
        (if p.2 ∈ Config.GENRES_ALLOWED then c.setGenre (cacheKey p.1) p.2 else c) ps) K
      by_cases h : p.2 ∈ Config.GENRES_ALLOWED
      · rw [if_pos h]
        refine applyResponses_missAt ps _ (fun q hq => hno q (by simp [hq])) ?_
        intro e he
        rw [setGenre_other (hno p (by simp) h)] at he
        exact hm e he
      · rw [if_neg h]
        exact applyResponses_missAt ps c (fun q hq => hno q (by simp [hq])) hm

theorem applyCacheGenre_missAt {c : Cache} {g : Game}
    (hm : cacheGenreMissAt c (cacheKey g.game)) : applyCacheGenre c g = g := by
  unfold applyCacheGenre
  cases hc : c (cacheKey g.game) with
  | none => rfl
  | some e =>
      show (if truthy e.genre = true then { g with genre := e.genre.getD "" } else g) = g
      rw [if_neg (by rw [hm e hc]; simp)]

theorem procBatches_get?_key {oracle : ℕ → BatchOutcome} {K : String}
    (hno : ∀ b resp usage, oracle b = .ok resp usage →
      ∀ p ∈ resp, p.2 ∈ Config.GENRES_ALLOWED → cacheKey p.1 ≠ K) :
    ∀ (bs : List (List Game)) (bIdx : ℕ) (cache : Cache) (j : ℕ) (gj : Game),
      cacheGenreMissAt cache K → bs.flatten.get? j = some gj → cacheKey gj.game = K →
      (procBatches oracle bIdx cache bs).games.get? j = some gj
  | [], _, _, j, gj, _, hj, _ => by simp at hj
  | b :: bs, bIdx, cache, j, gj, hm, hj, hK => by
      rw [List.flatten_cons] at hj
      unfold procBatches
      cases ho : oracle bIdx with
      | err =>
          show (b ++ (procBatches oracle (bIdx + 1) cache bs).games).get? j = some gj
          by_cases hjb : j < b.length
          · rw [List.get?_append hjb]
            rw [List.get?_append hjb] at hj
            exact hj
          · rw [List.get?_append_right (not_lt.mp hjb)]
            rw [List.get?_append_right (not_lt.mp hjb)] at hj
            exact procBatches_get?_key hno bs (bIdx + 1) cache _ gj hm hj hK
      | ok resp usage =>
          have hm' : cacheGenreMissAt (applyResponses cache resp) K :=
            applyResponses_missAt resp cache (fun p hp => hno bIdx resp usage ho p hp) hm
          show ((b.map (applyCacheGenre (applyResponses cache resp))) ++
              (procBatches oracle (bIdx + 1) (applyResponses cache resp) bs).games).get? j
            = some gj
          by_cases hjb : j < b.length
          · rw [List.get?_append (by simpa using hjb), List.get?_map]
            rw [List.get?_append hjb] at hj
            rw [hj]
            show some (applyCacheGenre (applyResponses cache resp) gj) = some gj
            rw [applyCacheGenre_missAt (hK ▸ hm')]
          · rw [List.get?_append_right (by simpa using not_lt.mp hjb), List.length_map]
            rw [List.get?_append_right (not_lt.mp hjb)] at hj
            exact procBatches_get?_key hno bs (bIdx + 1) _ _ gj hm' hj hK

theorem filter_get?_countP {p : Game → Bool} :
    ∀ (l : List Game) (i : ℕ) (x : Game), l.get? i = some x → p x = true →
      (l.filter p).get? ((l.take i).countP p) = some x
  | [], i, x, h, _ => by simp at h
  | y :: ys, 0, x, h, hp => by
      simp only [List.get?] at h
      injection h with h
      subst h
      rw [List.take_zero, List.countP_nil, List.filter_cons_of_pos hp]
      rfl
  | y :: ys, i + 1, x, h, hp => by
      simp only [List.get?] at h
      rw [List.take_succ_cons, List.countP_cons]
      by_cases hy : p y
      · rw [List.filter_cons_of_pos hy]
        simp only [hy, if_pos rfl]
        show ((y :: ys.filter p).get? ((ys.take i).countP p + 1)) = some x
        rw [List.get?_cons_succ]
        exact filter_get?_countP ys i x h hp
      · rw [List.filter_cons_of_neg hy]
        simp only [if_neg hy]
        rw [Nat.add_zero]
        exact filter_get?_countP ys i x h hp

theorem mergeRem_get? (cache : Cache) :
    ∀ (queue rs : List Game) (i : ℕ) (g r : Game),
      queue.get? i = some g →
      (fieldEmpty g.genre && !genreCacheHit cache g) = true →
      rs.get? ((queue.take i).countP
        (fun h => fieldEmpty h.genre && !genreCacheHit cache h)) = some r →
      (mergeRem cache queue rs).get? i = some r
  | [], _, i, g, r, h, _, _ => by simp at h
  | q :: qs, rs, 0, g, r, h, hp, hr => by
      simp only [List.get?] at h
      injection h with h
      subst h
      rw [List.take_zero, List.countP_nil, List.get?_zero] at hr
      obtain ⟨hempty, hmiss⟩ := Bool.and_eq_true_iff.mp hp
      unfold mergeRem
      rw [if_pos hempty, if_neg (by simpa using hmiss)]
      cases rs with
      | nil => simp at hr
      | cons r0 rs' =>
          simp only [List.head?] at hr
          injection hr with hr
          subst hr
          rfl
  | q :: qs, rs, i + 1, g, r, h, hp, hr => by
      simp only [List.get?] at h
      rw [List.take_succ_cons, List.countP_cons] at hr
      unfold mergeRem
      by_cases hq : fieldEmpty q.genre = true
      · rw [if_pos hq]
        by_cases hh : genreCacheHit cache q = true
        · rw [if_pos hh]
          have hpq : (fieldEmpty q.genre && !genreCacheHit cache q) = false := by
            simp [hq, hh]
          rw [hpq, if_neg (by simp), Nat.add_zero] at hr
          show (applyCacheGenre cache q :: mergeRem cache qs rs).get? (i + 1) = some r
          rw [List.get?_cons_succ]
          exact mergeRem_get? cache qs rs i g r h hp hr
        · rw [if_neg hh]
          have hpq : (fieldEmpty q.genre && !genreCacheHit cache q) = true := by
            simp [hq, hh]
          rw [hpq, if_pos rfl] at hr
          cases rs with
          | nil => simp at hr
          | cons r0 rs' =>
              rw [List.get?_cons_succ] at hr
              show (r0 :: mergeRem cache qs rs').get? (i + 1) = some r
              rw [List.get?_cons_succ]
              exact mergeRem_get? cache qs rs' i g r h hp hr
      · rw [if_neg hq]
        have hpq : (fieldEmpty q.genre && !genreCacheHit cache q) = false := by
          simp [hq]
        rw [hpq, if_neg (by simp), Nat.add_zero] at hr
        show (q :: mergeRem cache qs rs).get? (i + 1) = some r
        rw [List.get?_cons_succ]
        exact mergeRem_get? cache qs rs i g r h hp hr

theorem formatQuarter_ne_of_no_dot (k : ℤ) (t : String) (ht : ('.' : Char) ∉ t.data) :
    formatQuarter k ≠ t := by
  intro h
  apply ht
  rw [← h, formatQuarter_data]
  simp

theorem round_to_quarter_good (s : String) : goodField (round_to_quarter s) := by
  rcases round_to_quarter_cases s with h | ⟨k, h⟩
  · exact Or.inl (h ▸ rfl)
  · rw [h]
    refine Or.inr ⟨?_, formatQuarter_ne_of_no_dot k "" (by decide), ?_, ?_⟩
    · unfold pyStrip
      rw [stripL_eq_self (formatQuarter_no_ws k)]
    · rw [pyLower_formatQuarter]
      exact formatQuarter_ne_of_no_dot k "nan" (by decide)
    · rw [pyLower_formatQuarter]
      exact formatQuarter_ne_of_no_dot k "null" (by decide)

theorem postNormalize_good (g : Game) : goodGame (postNormalize g) :=
  ⟨normalize_field_good _, normalize_field_good _, normalize_field_good _,
    round_to_quarter_good _, normalize_field_good _, normalize_field_good _⟩

/-- C5: `round_to_quarter` applied twice equals applied once;
`round_to_quarter "7.1" = "7.00"`, `round_to_quarter "7.13" = "7.25"`,
`round_to_quarter "Unknown" = "Unknown"`; and every non-sentinel result
is the parsed input rounded to a nearest multiple of 0.25, formatted
with exactly two decimal digits. -/
theorem C5_rounding_law :
    (∀ s, round_to_quarter (round_to_quarter s) = round_to_quarter s) ∧
      round_to_quarter "7.1" = "7.00" ∧ round_to_quarter "7.13" = "7.25" ∧
      round_to_quarter "Unknown" = "Unknown" ∧
      (∀ s, round_to_quarter s ≠ "Unknown" →
        ∃ q k, parseFloat? s = some q ∧ round_to_quarter s = formatQuarter k ∧
          |(k : ℚ) / 4 - q| ≤ 1 / 8 ∧ (∀ m : ℤ, |(k : ℚ) / 4 - q| ≤ |(m : ℚ) / 4 - q|) ∧
          ∃ a b : String, round_to_quarter s = a ++ "." ++ b ∧ b.data.length = 2 ∧
            ∀ c ∈ b.data, isDigitC c = true) :=
  ⟨round_to_quarter_idem, round_to_quarter_71, round_to_quarter_713, by decide,
    round_to_quarter_nearest⟩

/-- Witness for C5 at the concrete input "7.13". -/
theorem C5_rounding_law_witness :
    round_to_quarter (round_to_quarter "7.13") = round_to_quarter "7.13" ∧
      ∃ q k, parseFloat? "7.13" = some q ∧ round_to_quarter "7.13" = formatQuarter k ∧
        |(k : ℚ) / 4 - q| ≤ 1 / 8 ∧ (∀ m : ℤ, |(k : ℚ) / 4 - q| ≤ |(m : ℚ) / 4 - q|) ∧
        ∃ a b : String, round_to_quarter "7.13" = a ++ "." ++ b ∧ b.data.length = 2 ∧
          ∀ c ∈ b.data, isDigitC c = true :=
  ⟨C5_rounding_law.1 "7.13",
    C5_rounding_law.2.2.2.2 "7.13" (by simp [round_to_quarter_713])⟩

/-- C8: Python's `max(results, key=...)` as used on search results is a
stable linear max-scan: the selected candidate is a member, carries the
maximal similarity, and is the first maximal element of the returned
order. -/
theorem C8_stable_max_scan (c : Candidate) (cs : List Candidate) :
    pyMax c cs ∈ c :: cs ∧ (∀ x ∈ c :: cs, x.similarity ≤ (pyMax c cs).similarity) ∧
      ∃ l1 l2, c :: cs = l1 ++ pyMax c cs :: l2 ∧
        ∀ x ∈ l1, x.similarity < (pyMax c cs).similarity :=
  pyMax_spec c cs

/-- C6 (corrected): no two records of `deduplicate_games`' output share
the Composite Identity Key, the output is no longer than the input, and
for each key of the code — `(lower(normalize_field(Name)),
lower(normalize_field(Platform)))`, which collapses sentinel-like names
— the retained record is the first occurrence, later duplicates being
dropped entirely. -/
theorem C6_dedup_invariant (l : List Game) :
    List.Pairwise (fun a b => specCompositeKey a ≠ specCompositeKey b) (deduplicate_games l) ∧
      (deduplicate_games l).length ≤ l.length ∧
      ∀ k, (deduplicate_games l).filter (fun g => decide (dedupKey g = k)) =
        (l.filter (fun g => decide (dedupKey g = k))).take 1 := by
  refine ⟨?_, dedupAux_length [] l, ?_⟩
  · exact ((dedupAux_inv [] l).2).imp (fun h hc => h (dedupKey_eq_of_specKey_eq hc))
  · intro k
    have h := dedupAux_filter k [] l
    rw [if_neg (by simp)] at h
    exact h

/-- C6 counterexample: `rNan` is the only (hence first) occurrence of
its Composite Identity Key `(lower(trim(Name)), lower(trim(Platform)))`
in the input, yet `deduplicate_games` drops it (the code keys on
normalized names, merging "none" and "nan" into one bucket). -/
theorem C6_dedup_cex :
    specCompositeKey rNone ≠ specCompositeKey rNan ∧
      ([rNone, rNan].filter (fun g => decide (specCompositeKey g = specCompositeKey rNan))).take 1
        = [rNan] ∧
      deduplicate_games [rNone, rNan] = [rNone] ∧
      (deduplicate_games [rNone, rNan]).filter
        (fun g => decide (specCompositeKey g = specCompositeKey rNan)) = [] := by decide

/-- C3 (corrected): `process_hltb_only` issues no search and changes
nothing when the platform contains "pico 8" or when none of the four
target fields is truly empty (an already-"Unknown" field counts as
populated; the code tests emptiness, not the sentinel). -/
theorem C3_skip_rule (cache : Cache) (g : Game) (s : SearchOutcome)
    (h : containsSub "pico 8" (pyLower (pyStrip g.platform)) = true ∨ needs_hltb g = false) :
    process_hltb_only cache g s = ⟨g, cache, 0, 0⟩ := by
  simp only [process_hltb_only]
  rcases h with h | h
  · rw [if_pos h]
  · by_cases hp : containsSub "pico 8" (pyLower (pyStrip g.platform)) = true
    · rw [if_pos hp]
    · rw [if_neg hp, if_pos (by simp [h])]

/-- Witness for C3: a Pico 8 record is skipped with zero calls. -/
theorem C3_skip_rule_witness :
    process_hltb_only noCache gPico (.ok []) = ⟨gPico, noCache, 0, 0⟩ :=
  C3_skip_rule noCache gPico (.ok []) (Or.inl (by decide))

/-- C3 counterexample: all four target fields are non-"Unknown" (they
are empty strings), yet the lookup issues one external search — the
claim's "all four target fields already non-Unknown ⇒ no search" is
false as stated. -/
theorem C3_skip_rule_cex :
    gEmpty4.year ≠ "Unknown" ∧ gEmpty4.gameId ≠ "Unknown" ∧
      gEmpty4.timeToBeat ≠ "Unknown" ∧ gEmpty4.score ≠ "Unknown" ∧
      (process_hltb_only noCache gEmpty4 (.ok [])).calls = 1 := by decide

/-- C7 (corrected): when the record passes the platform and
missing-field guards, a cache entry with truthy `Game Id` and `Year`
short-circuits the lookup: all four fields are copied (absent cached
fields becoming "Unknown"), with zero search calls and no cache
write. -/
theorem C7_cache_short_circuit (cache : Cache) (g : Game) (s : SearchOutcome) (e : CacheEntry)
    (hpico : containsSub "pico 8" (pyLower (pyStrip g.platform)) = false)
    (hneeds : needs_hltb g = true)
    (hent : cache (cacheKey g.game) = some e)
    (hgy : (truthy e.gameId && truthy e.year) = true) :
    process_hltb_only cache g s =
      ⟨{ g with score := e.score.getD "Unknown", year := e.year.getD "Unknown",
                gameId := e.gameId.getD "Unknown", timeToBeat := e.timeToBeat.getD "Unknown" },
        cache, 0, 0⟩ := by
  simp only [process_hltb_only]
  rw [if_neg (by simp [hpico]), if_neg (by simp [hneeds])]
  split
  · next cached_data heq =>
      rw [hent] at heq
      injection heq with heq
      subst heq
      rw [if_pos hgy]
  · next heq =>
      rw [hent] at heq
      cases heq

/-- Witness for C7: the spec's Growl scenario. -/
theorem C7_cache_short_circuit_witness :
    process_hltb_only growlCache gGrowl (.ok []) =
      ⟨{ gGrowl with score := "Unknown", year := "1991", gameId := "123",
                     timeToBeat := "Unknown" }, growlCache, 0, 0⟩ :=
  C7_cache_short_circuit growlCache gGrowl (.ok []) growlEntry
    (by decide) (by decide) (by decide) (by decide)

/-- C7 counterexample: a record whose name has a fully-populated cache
entry but whose platform is excluded is returned unchanged — the
claim's unconditional "copies all four fields from cache" is false as
stated (the pico-8 and missing-field guards run first). -/
theorem C7_cache_short_circuit_cex :
    growlCache (cacheKey gGrowlPico.game) = some growlEntry ∧
      (truthy growlEntry.gameId && truthy growlEntry.year) = true ∧
      (process_hltb_only growlCache gGrowlPico (.ok [])).game = gGrowlPico ∧
      (process_hltb_only growlCache gGrowlPico (.ok [])).game.year ≠ "1991" := by decide

/-- C4 (corrected): with the guards passed and a cache miss, the best
candidate is accepted at similarity exactly the threshold — its
normalized fields are written to the record and merged into the cache
with a save; strictly below the threshold nothing is written (record,
cache and save count unchanged — the lookup does not set fields to
"Unknown"; a field ends as "Unknown" after the run's final
normalization only if it was empty). -/
theorem C4_threshold_boundary (cache : Cache) (g : Game) (c : Candidate) (cs : List Candidate)
    (hpico : containsSub "pico 8" (pyLower (pyStrip g.platform)) = false)
    (hneeds : needs_hltb g = true)
    (hmiss : ∀ e, cache (cacheKey g.game) = some e →
      (truthy e.gameId && truthy e.year) = false) :
    ((pyMax c cs).similarity = Config.SIMILARITY_THRESHOLD →
      (process_hltb_only cache g (.ok (c :: cs))).game =
          { g with score := normalize_field (pyMax c cs).review_score,
                   year := normalize_field (pyMax c cs).release_world,
                   gameId := normalize_field (pyMax c cs).game_id,
                   timeToBeat := round_to_quarter (pyMax c cs).main_story } ∧
        (process_hltb_only cache g (.ok (c :: cs))).cache =
          cache.insertHltb (cacheKey g.game) (normalize_field (pyMax c cs).review_score)
            (normalize_field (pyMax c cs).release_world)
            (normalize_field (pyMax c cs).game_id)
            (round_to_quarter (pyMax c cs).main_story) ∧
        (process_hltb_only cache g (.ok (c :: cs))).saves = 1) ∧
    ((pyMax c cs).similarity < Config.SIMILARITY_THRESHOLD →
      (process_hltb_only cache g (.ok (c :: cs))).game = g ∧
        (process_hltb_only cache g (.ok (c :: cs))).cache = cache ∧
        (process_hltb_only cache g (.ok (c :: cs))).saves = 0 ∧
        (fieldEmpty g.year = true → (postNormalize g).year = "Unknown") ∧
        (fieldEmpty g.gameId = true → (postNormalize g).gameId = "Unknown") ∧
        (fieldEmpty g.score = true → (postNormalize g).score = "Unknown") ∧
        (fieldEmpty g.timeToBeat = true → (postNormalize g).timeToBeat = "Unknown")) := by
  have hred : process_hltb_only cache g (.ok (c :: cs)) =
      hltbSearchStep cache g (cacheKey g.game) (.ok (c :: cs)) := by
    simp only [process_hltb_only]
    rw [if_neg (by simp [hpico]), if_neg (by simp [hneeds])]
    split
    · next cached_data heq => rw [if_neg (by simp [hmiss cached_data heq])]
    · rfl
  have hstep : hltbSearchStep cache g (cacheKey g.game) (.ok (c :: cs)) =
      if (pyMax c cs).similarity ≥ Config.SIMILARITY_THRESHOLD then
        ⟨{ g with score := normalize_field (pyMax c cs).review_score,
                  year := normalize_field (pyMax c cs).release_world,
                  gameId := normalize_field (pyMax c cs).game_id,
                  timeToBeat := round_to_quarter (pyMax c cs).main_story },
          cache.insertHltb (cacheKey g.game) (normalize_field (pyMax c cs).review_score)
            (normalize_field (pyMax c cs).release_world)
            (normalize_field (pyMax c cs).game_id)
            (round_to_quarter (pyMax c cs).main_story), 1, 1⟩
      else ⟨g, cache, 1, 0⟩ := rfl
  have hpnY : (postNormalize g).year = normalize_field g.year := rfl
  have hpnG : (postNormalize g).gameId = normalize_field g.gameId := rfl
  have hpnS : (postNormalize g).score = normalize_field g.score := rfl
  have hpnT : (postNormalize g).timeToBeat = round_to_quarter (normalize_field g.timeToBeat) :=
    rfl
  constructor
  · intro heq
    have hge : (pyMax c cs).similarity ≥ Config.SIMILARITY_THRESHOLD := ge_of_eq heq
    rw [hred, hstep, if_pos hge]
    exact ⟨rfl, rfl, rfl⟩
  · intro hlt
    rw [hred, hstep, if_neg (not_le.mpr hlt)]
    refine ⟨rfl, rfl, rfl, ?_, ?_, ?_, ?_⟩
    · intro hE
      rw [hpnY]
      exact normalize_field_of_empty hE
    · intro hE
      rw [hpnG]
      exact normalize_field_of_empty hE
    · intro hE
      rw [hpnS]
      exact normalize_field_of_empty hE
    · intro hE
      rw [hpnT, normalize_field_of_empty hE]
      decide

/-- Witness for C4: a lone candidate at similarity exactly 0.85 is
accepted and saved. -/
theorem C4_threshold_boundary_witness :
    (process_hltb_only noCache gW (.ok [candT])).game =
        { gW with score := "80", year := "1991", gameId := "123", timeToBeat := "Unknown" } ∧
      (process_hltb_only noCache gW (.ok [candT])).saves = 1 := by
  have h := (C4_threshold_boundary noCache gW candT [] (by decide) (by decide)
      (fun e he => Option.noConfusion he)).1 (by decide)
  exact ⟨h.1.trans (by decide), h.2.2⟩

/-- C4 counterexample: the single candidate has similarity 0.40, below
the threshold, so it is rejected — but the record's `Year` ends the run
as "1991" (its pre-populated value), not "Unknown" as the claim states
for the four target fields. -/
theorem C4_threshold_boundary_cex :
    candLow.similarity < Config.SIMILARITY_THRESHOLD ∧
      (mainRun noCache oracleErr oracleLow [gPrefilled]).saves = 0 ∧
      ((mainRun noCache oracleErr oracleLow [gPrefilled]).file.map Game.year) = ["1991"] ∧
      "1991" ≠ "Unknown" := by decide

/-- C1: with no truly-empty field anywhere in the input, a run performs
zero external calls (no classification request, no duration search) and
leaves the file unchanged; a second run on the result (with any oracles
and the first run's cache) does the same, so the output is identical
both times.  Moreover a record with no truly-empty field never enters
the work queue, hence incurs zero external calls in any run. -/
theorem C1_run_idempotence :
    (∀ (cache : Cache) (go go' : ℕ → BatchOutcome) (so so' : ℕ → SearchOutcome)
        (input : List Game), (∀ g ∈ input, needsUpdate g = false) →
      (mainRun cache go so input).llmCalls = 0 ∧ (mainRun cache go so input).hltbCalls = 0 ∧
        (mainRun cache go so input).file = input ∧
        (mainRun (mainRun cache go so input).cache go' so'
            (mainRun cache go so input).file).llmCalls = 0 ∧
        (mainRun (mainRun cache go so input).cache go' so'
            (mainRun cache go so input).file).hltbCalls = 0 ∧
        (mainRun (mainRun cache go so input).cache go' so'
            (mainRun cache go so input).file).file = (mainRun cache go so input).file) ∧
    (∀ (input : List Game) (g : Game), needsUpdate g = false → g ∉ workQueue input) := by
  constructor
  · intro cache go go' so so' input h
    have hrun : ∀ (c : Cache) (o1 : ℕ → BatchOutcome) (o2 : ℕ → SearchOutcome),
        mainRun c o1 o2 input = ⟨input, c, 0, 0, 0, false⟩ := by
      intro c o1 o2
      have hq : workQueue input = [] := by
        unfold workQueue
        rw [List.filter_eq_nil.mpr
          (fun g hg => by simp [h g (dedupAux_subset [] input g hg)]), List.take_nil]
      simp only [mainRun]
      rw [hq, if_pos rfl]
    have h1 := hrun cache go so
    refine ⟨by rw [h1], by rw [h1], by rw [h1], ?_, ?_, ?_⟩
    · rw [h1]
      exact (show (mainRun cache go' so' input).llmCalls = 0 by rw [hrun cache go' so'])
    · rw [h1]
      exact (show (mainRun cache go' so' input).hltbCalls = 0 by rw [hrun cache go' so'])
    · rw [h1]
      exact (show (mainRun cache go' so' input).file = input by rw [hrun cache go' so'])
  · intro input g hg hmem
    unfold workQueue at hmem
    have := List.mem_filter.mp (List.take_subset _ _ hmem)
    rw [hg] at this
    exact Bool.noConfusion this.2

/-- Witness for C1 on a one-record fully-populated dataset. -/
theorem C1_run_idempotence_witness :
    ((mainRun noCache oracleErr oracleNil [gFull]).llmCalls = 0 ∧
      (mainRun noCache oracleErr oracleNil [gFull]).hltbCalls = 0 ∧
      (mainRun noCache oracleErr oracleNil [gFull]).file = [gFull] ∧
      (mainRun (mainRun noCache oracleErr oracleNil [gFull]).cache oracleErr oracleNil
          (mainRun noCache oracleErr oracleNil [gFull]).file).llmCalls = 0 ∧
      (mainRun (mainRun noCache oracleErr oracleNil [gFull]).cache oracleErr oracleNil
          (mainRun noCache oracleErr oracleNil [gFull]).file).hltbCalls = 0 ∧
      (mainRun (mainRun noCache oracleErr oracleNil [gFull]).cache oracleErr oracleNil
          (mainRun noCache oracleErr oracleNil [gFull]).file).file
        = (mainRun noCache oracleErr oracleNil [gFull]).file) ∧
      gFull ∉ workQueue [gFull] :=
  ⟨C1_run_idempotence.1 noCache oracleErr oracleErr oracleNil oracleNil [gFull] (by decide),
    C1_run_idempotence.2 [gFull] gFull (by decide)⟩

/-- C2 (corrected): every record of the written output either passed
through unchanged from the deduplicated input (records outside the work
queue are not normalized) or — for the processed queue records — has
its `Year`, `Genre`, `Game Id`, `Time to Beat`, `Score` and `Platform`
fields equal to "Unknown" or a normalized non-empty value. -/
theorem C2_output_field_invariant (cache : Cache) (go : ℕ → BatchOutcome)
    (so : ℕ → SearchOutcome) (input : List Game)
    (hw : (mainRun cache go so input).wrote = true) :
    ∀ g ∈ (mainRun cache go so input).file, g ∈ deduplicate_games input ∨ goodGame g := by
  intro g hg
  by_cases hq : workQueue input = []
  · have hfalse : (mainRun cache go so input).wrote = false := by
      simp only [mainRun]
      rw [hq, if_pos rfl]
    rw [hfalse] at hw
    exact Bool.noConfusion hw
  · have hfile : (mainRun cache go so input).file =
        mergeQueue (deduplicate_games input)
          ((hltbLoop so 0 (fetch_genres_batch cache go (workQueue input)).cache
              (fetch_genres_batch cache go (workQueue input)).games).1.map postNormalize) := by
      simp only [mainRun]
      rw [if_neg hq]
    rw [hfile] at hg
    rcases mergeQueue_mem _ _ g hg with h | h
    · exact Or.inl h
    · right
      obtain ⟨g0, -, rfl⟩ := List.mem_map.mp h
      exact postNormalize_good g0

/-- Witness for C2: the processed record of a one-record run satisfies
the invariant. -/
theorem C2_output_field_invariant_witness :
    gNeedyOut ∈ deduplicate_games [gNeedy] ∨ goodGame gNeedyOut :=
  C2_output_field_invariant noCache oracleErr oracleNil [gNeedy] (by decide) gNeedyOut
    (by decide)

/-- C2 counterexample: `gBad` has no truly-empty field, so it never
enters the work queue and is written back verbatim — its `Year` is the
forbidden string "nan" in the written output. -/
theorem C2_output_field_invariant_cex :
    (mainRun noCache oracleErr oracleNil [gBad, gNeedy]).wrote = true ∧
      (mainRun noCache oracleErr oracleNil [gBad, gNeedy]).file.get? 0 = some gBad ∧
      gBad.year = "nan" ∧ ¬ goodField gBad.year := by decide

/-- C9: a queue record whose genre is truly empty, has no usable cached
genre, and whose cache key matches no allowed label of any successful
batch response (batch failures included) comes out of
`fetch_genres_batch` with a genre that the run's final normalization
turns into "Unknown"; and one request is attempted per batch regardless
of failures, so a failed batch never prevents later batches. -/
theorem C9_classification_degradation :
    (∀ (cache : Cache) (oracle : ℕ → BatchOutcome) (queue : List Game) (i : ℕ) (g : Game),
        queue.get? i = some g → fieldEmpty g.genre = true → genreCacheHit cache g = false →
        (∀ b resp usage, oracle b = .ok resp usage →
          ∀ p ∈ resp, p.2 ∈ Config.GENRES_ALLOWED → cacheKey p.1 ≠ cacheKey g.game) →
        ((fetch_genres_batch cache oracle queue).games.get? i).map
            (fun g' => normalize_field g'.genre) = some "Unknown") ∧
    (∀ (cache : Cache) (oracle : ℕ → BatchOutcome) (queue : List Game),
        queue.filter (fun g => fieldEmpty g.genre && !genreCacheHit cache g) ≠ [] →
        (fetch_genres_batch cache oracle queue).calls =
          (chunks Config.GENRE_BATCH_SIZE
            (queue.filter (fun g => fieldEmpty g.genre && !genreCacheHit cache g))).length) := by
  constructor
  · intro cache oracle queue i g hget hempty hmiss hno
    have hp : (fieldEmpty g.genre && !genreCacheHit cache g) = true := by
      simp [hempty, hmiss]
    have hremg : (queue.filter (fun h => fieldEmpty h.genre && !genreCacheHit cache h)).get?
        ((queue.take i).countP (fun h => fieldEmpty h.genre && !genreCacheHit cache h))
        = some g := filter_get?_countP queue i g hget hp
    have hremne : queue.filter (fun h => fieldEmpty h.genre && !genreCacheHit cache h) ≠ [] := by
      intro hc
      have := List.filter_eq_nil.mp hc g (List.get?_mem hget)
      rw [hp] at this
      exact this rfl
    have htarget : queue.filter (fun h => fieldEmpty h.genre) ≠ [] := by
      intro hc
      have := List.filter_eq_nil.mp hc g (List.get?_mem hget)
      rw [hempty] at this
      exact this rfl
    have hfetch : (fetch_genres_batch cache oracle queue).games =
        mergeRem cache queue (procBatches oracle 0 cache
          (chunks Config.GENRE_BATCH_SIZE
            (queue.filter (fun h => fieldEmpty h.genre && !genreCacheHit cache h)))).games := by
      simp only [fetch_genres_batch]
      rw [if_neg htarget, if_neg hremne]
    have hmissAt : cacheGenreMissAt cache (cacheKey g.game) := by
      intro e he
      unfold genreCacheHit at hmiss
      rw [he] at hmiss
      exact hmiss
    have hproc : (procBatches oracle 0 cache
        (chunks Config.GENRE_BATCH_SIZE
          (queue.filter (fun h => fieldEmpty h.genre && !genreCacheHit cache h)))).games.get?
        ((queue.take i).countP (fun h => fieldEmpty h.genre && !genreCacheHit cache h))
        = some g :=
      procBatches_get?_key hno _ 0 cache _ g hmissAt (by rw [chunks_join]; exact hremg) rfl
    rw [hfetch, mergeRem_get? cache queue _ i g g hget hp hproc]
    show some (normalize_field g.genre) = some "Unknown"
    rw [normalize_field_of_empty hempty]
  · intro cache oracle queue hrem
    have htarget : queue.filter (fun h => fieldEmpty h.genre) ≠ [] := by
      intro hc
      apply hrem
      apply List.filter_eq_nil.mpr
      intro a ha
      have h1 := List.filter_eq_nil.mp hc a ha
      simp only [Bool.and_eq_true, not_and]
      intro hh
      exact absurd hh h1
    have : (fetch_genres_batch cache oracle queue).calls =
        (procBatches oracle 0 cache
          (chunks Config.GENRE_BATCH_SIZE
            (queue.filter (fun g => fieldEmpty g.genre && !genreCacheHit cache g)))).calls := by
      simp only [fetch_genres_batch]
      rw [if_neg htarget, if_neg hrem]
    rw [this, procBatches_calls]

/-- Witness for C9: a response label outside the allowed set leaves the
record's genre to be normalized to "Unknown"; the batch was still
attempted. -/
theorem C9_classification_degradation_witness :
    ((fetch_genres_batch noCache oracleBadLabel [gNeedy]).games.get? 0).map
        (fun g' => normalize_field g'.genre) = some "Unknown" ∧
      (fetch_genres_batch noCache oracleBadLabel [gNeedy]).calls = 1 :=
  ⟨C9_classification_degradation.1 noCache oracleBadLabel [gNeedy] 0 gNeedy
      (by decide) (by decide) (by decide)
      (by intro b resp usage h; cases h; decide),
    C9_classification_degradation.2 noCache oracleBadLabel [gNeedy] (by decide)⟩

/-- C10: `fetch_genres_batch` changes only the `Genre` field of the
records handed to it, and its cache merge touches only the `Genre` key
of a cache entry, preserving all cached `Year`, `Game Id`,
`Time to Beat` and `Score` values. -/
theorem C10_genre_frame (cache : Cache) (oracle : ℕ → BatchOutcome) (queue : List Game) :
    (fetch_genres_batch cache oracle queue).games.map gameFrame = queue.map gameFrame ∧
      ∀ k, entryFrame ((fetch_genres_batch cache oracle queue).cache k)
        = entryFrame (cache k) := by
  have hmerge : ∀ (qs rs : List Game),
      rs.map gameFrame
          = (qs.filter (fun h => fieldEmpty h.genre && !genreCacheHit cache h)).map gameFrame →
      (mergeRem cache qs rs).map gameFrame = qs.map gameFrame := by
    intro qs
    induction qs with
    | nil => intro rs _; rfl
    | cons q qs ih =>
        intro rs hrs
        unfold mergeRem
        by_cases hq : fieldEmpty q.genre = true
        · rw [if_pos hq]
          by_cases hh : genreCacheHit cache q = true
          · rw [if_pos hh]
            rw [List.filter_cons_of_neg (by simp [hq, hh])] at hrs
            rw [List.map_cons, gameFrame_applyCacheGenre, ih rs hrs, List.map_cons]
          · rw [if_neg hh]
            rw [List.filter_cons_of_pos (by simp [hq, hh])] at hrs
            cases rs with
            | nil => rw [List.map_cons] at hrs; exact absurd hrs (by simp)
            | cons r rs' =>
                rw [List.map_cons, List.map_cons] at hrs
                injection hrs with hr hrs'
                rw [List.map_cons, hr, ih rs' hrs', List.map_cons]
        · rw [if_neg hq]
          rw [List.filter_cons_of_neg (by simp [hq])] at hrs
          rw [List.map_cons, ih rs hrs, List.map_cons]
  simp only [fetch_genres_batch]
  by_cases ht : queue.filter (fun g => fieldEmpty g.genre) = []
  · rw [if_pos ht]
    exact ⟨rfl, fun k => rfl⟩
  · rw [if_neg ht]
    by_cases hr : queue.filter (fun g => fieldEmpty g.genre && !genreCacheHit cache g) = []
    · rw [if_pos hr]
      exact ⟨hmerge queue [] (by rw [hr]), fun k => rfl⟩
    · rw [if_neg hr]
      refine ⟨?_, ?_⟩
      · exact hmerge queue _ (by rw [procBatches_gameFrame, chunks_join])
      · intro k
        exact procBatches_entryFrame oracle _ 0 cache k

end Script

